import Mathlib

/-!
Verification of the PIXI repository against its specification.

The repository's checked-in sources contain the map-explorer front end
(`frontend/src/components/DocumentCanvas.tsx`) and the project manager
(`frontend/src/utils/documentExtractor.ts`); those are embedded directly.
The Entity Resolution & Growth Signal Pipeline described by the spec
(Normalizer, Entity Resolver, Signal Aggregator, Quality Manager) has no
implementation under the checked-in sources, so it is modelled here from
the spec's own words; each such definition is marked `Modelled from the
spec`.
-/

namespace Pipeline

/-- Modelled from the spec: source confidence classes, §4.2 — the pipeline
implementation is missing from the sources.  Priority order: user-submitted
correction > permissioned API > public government data > web crawl >
inferred/derived. -/
inductive SourceType where
  | userCorrection
  | permissionedApi
  | publicGov
  | webCrawl
  | inferred
deriving DecidableEq

/-- Modelled from the spec: numeric rank of the fixed confidence order. -/
def SourceType.priority : SourceType → Nat
  | .userCorrection => 4
  | .permissionedApi => 3
  | .publicGov => 2
  | .webCrawl => 1
  | .inferred => 0

/-- Modelled from the spec: the five canonical entity types (§3). -/
inductive EntityType where
  | startup
  | investor
  | accelerator
  | space
  | event
deriving DecidableEq

/-- Modelled from the spec: the fixed raw-type lookup table of the
Normalizer (§4.1); unmapped raw values are rejected, not guessed. -/
def typeTable : List (String × EntityType) :=
  [("startup", .startup), ("investor", .investor),
   ("accelerator", .accelerator), ("space", .space),
   ("coworking_space", .space), ("event", .event)]

/-- Modelled from the spec: the unvalidated payload of a RawRecord (§3),
restricted to the canonical field set used by the claims. -/
structure RawPayload where
  name : String
  rtype : String
  website : Option String
  description : Option String
  country : Option String
  city : Option String
  founded_year : Option Nat
  domains : List String
  coords : Option (ℚ × ℚ)
deriving DecidableEq

/-- Modelled from the spec: RawRecord (§3). -/
structure RawRecord where
  source_id : Nat
  source_type : SourceType
  fetched_at : Nat
  payload : RawPayload
deriving DecidableEq

/-- Modelled from the spec: typed projection of a RawRecord (§3). -/
structure NormalizedRecord where
  source_id : Nat
  source_type : SourceType
  fetched_at : Nat
  etype : EntityType
  name : String
  website : Option String
  description : Option String
  country : Option String
  city : Option String
  founded_year : Option Nat
  domains : List String
  coords : Option (ℚ × ℚ)
deriving DecidableEq

/-- Modelled from the spec: the enumerated rejection reasons (§4.1). -/
inductive RejectionReason where
  | MissingName
  | UnknownType
  | MalformedURL
  | MalformedCoordinate
deriving DecidableEq

/-- Trim leading and trailing whitespace (structural form of trimming,
used so that all checks are executable). -/
def trimStr (s : String) : String :=
  ⟨((s.data.dropWhile fun c => c.isWhitespace).reverse.dropWhile fun c => c.isWhitespace).reverse⟩

/-- Modelled from the spec: URL well-formedness used for the
`MalformedURL` rejection; the spec fixes no grammar, so a minimal check
is used (non-empty, no blanks, has a dot). -/
def validUrl (s : String) : Bool :=
  !s.data.isEmpty && !(s.data.contains ' ') && s.data.contains '.'

/-- Modelled from the spec: coordinate well-formedness used for the
`MalformedCoordinate` rejection (latitude / longitude ranges). -/
def validCoord (lat lon : ℚ) : Bool :=
  decide (-90 ≤ lat) && decide (lat ≤ 90) &&
  decide (-180 ≤ lon) && decide (lon ≤ 180)

/-- A present website passes the URL check; an absent one is fine. -/
def checkUrl : Option String → Bool
  | none => true
  | some w => validUrl w

/-- A present coordinate pair passes the range check; an absent one is fine. -/
def checkCoords : Option (ℚ × ℚ) → Bool
  | none => true
  | some p => validCoord p.1 p.2

/-- Modelled from the spec: `normalize(raw) -> NormalizedRecord |
RejectionReason` (§4.1) — the Normalizer implementation is missing from
the sources.  The payload must supply a non-empty `name` after trimming
and a `type` mapped by the fixed lookup table; a present website or
coordinate pair must be well formed. -/
def normalize (raw : RawRecord) : Except RejectionReason NormalizedRecord :=
  if trimStr raw.payload.name = "" then .error .MissingName
  else
    match typeTable.lookup raw.payload.rtype with
    | none => .error .UnknownType
    | some t =>
      if checkUrl raw.payload.website = false then .error .MalformedURL
      else if checkCoords raw.payload.coords = false then .error .MalformedCoordinate
      else .ok
        { source_id := raw.source_id
          source_type := raw.source_type
          fetched_at := raw.fetched_at
          etype := t
          name := trimStr raw.payload.name
          website := raw.payload.website
          description := raw.payload.description
          country := raw.payload.country
          city := raw.payload.city
          founded_year := raw.payload.founded_year
          domains := raw.payload.domains
          coords := raw.payload.coords }

/-- Modelled from the spec: batch normalization — a rejection drops only
that record (kept with its logged reason) and never aborts the batch
(§4.1, §7). -/
def normalizeBatch (rs : List RawRecord) :
    List NormalizedRecord × List (RawRecord × RejectionReason) :=
  rs.foldr
    (fun r acc =>
      match normalize r with
      | .ok n => (n :: acc.1, acc.2)
      | .error why => (acc.1, (r, why) :: acc.2))
    ([], [])

/-- Lowercase a character list. -/
def lowerL (l : List Char) : List Char := l.map Char.toLower

/-- Drop a literal prefix from a character list when it is there. -/
def dropPreL (pre l : List Char) : List Char :=
  if pre.isPrefixOf l then l.drop pre.length else l

/-- Modelled from the spec: website normalization (§4.2 blocking) —
lowercase, strip protocol and `www.`, strip the path. -/
def websiteKey (w : String) : List Char :=
  (dropPreL "www.".data (dropPreL "http://".data
      (dropPreL "https://".data (lowerL w.data)))).takeWhile
    fun c => c != '/'

/-- Modelled from the spec: legal suffixes stripped from names (§4.2). -/
def legalSuffixes : List (List Char) :=
  ["inc".data, "inc.".data, "co".data, "co.".data, "llc".data, "ltd".data,
   "ltd.".data, "corp".data, "corp.".data, "주식회사".data]

/-- Split a character list into blank-separated words. -/
def splitWords : List Char → List Char → List (List Char)
  | [], cur => if cur.isEmpty then [] else [cur.reverse]
  | c :: rest, cur =>
    if c = ' ' then
      if cur.isEmpty then splitWords rest [] else cur.reverse :: splitWords rest []
    else splitWords rest (c :: cur)

/-- Tokens of a name: lowercase, split on blanks, legal suffixes removed. -/
def nameTokens (s : String) : List (List Char) :=
  (splitWords (lowerL s.data) []).filter fun t => !legalSuffixes.contains t

/-- Join words back with single blanks. -/
def joinWords : List (List Char) → List Char
  | [] => []
  | [w] => w
  | w :: ws => w ++ ' ' :: joinWords ws

/-- Modelled from the spec: normalized name key (§4.2 blocking) —
lowercase, legal suffixes stripped, whitespace collapsed. -/
def nameKey (s : String) : List Char :=
  joinWords (nameTokens s)

/-- Modelled from the spec: blocking key (§4.2) — the normalized website
domain when a website is present, otherwise the normalized name key.  The
Boolean component records which kind of key it is. -/
def blockKey (r : NormalizedRecord) : Bool × List Char :=
  match r.website with
  | some w => (true, websiteKey w)
  | none => (false, nameKey r.name)

/-- Modelled from the spec: token-set overlap at least the fixed 0.85
threshold (§4.2), stated over naturals to avoid real arithmetic. -/
def simAtLeast (a b : List (List Char)) : Bool :=
  let ia := (a.dedup.filter fun t => b.contains t).length
  let ua := (a ++ b).dedup.length
  decide (85 * ua ≤ 100 * ia)

/-- Country compatibility: countries must agree when both records give one. -/
def countryOk (r1 r2 : NormalizedRecord) : Bool :=
  match r1.country, r2.country with
  | some a, some b => a == b
  | _, _ => true

/-- Modelled from the spec: the within-block match rule (§4.2) — same
entity when websites match exactly after normalization, or (no website on
either side) normalized names match exactly, or fuzzy token-set similarity
is above threshold and countries are compatible.  Comparison only happens
inside a block, hence the blocking-key guard. -/
def matchRec (r1 r2 : NormalizedRecord) : Bool :=
  blockKey r1 == blockKey r2 &&
    ((match r1.website, r2.website with
      | some w1, some w2 => websiteKey w1 == websiteKey w2
      | _, _ => false) ||
     (r1.website == none && r2.website == none && nameKey r1.name == nameKey r2.name) ||
     (simAtLeast (nameTokens r1.name) (nameTokens r2.name) && countryOk r1 r2))

/-- Modelled from the spec: the deterministic confidence order used in
field resolution (§4.2) — higher source priority wins, ties broken by the
most recent `fetched_at`; a final `source_id` tiebreak keeps the choice
deterministic (§4.2: conflicts are resolved deterministically, never
randomly). -/
def Dominates (a b : NormalizedRecord) : Prop :=
  b.source_type.priority < a.source_type.priority ∨
    (a.source_type.priority = b.source_type.priority ∧
      (b.fetched_at < a.fetched_at ∨
        (a.fetched_at = b.fetched_at ∧ b.source_id < a.source_id)))

instance : DecidablePred fun p : NormalizedRecord × NormalizedRecord => Dominates p.1 p.2 :=
  fun _ => by unfold Dominates; infer_instance

instance (a b : NormalizedRecord) : Decidable (Dominates a b) := by
  unfold Dominates; infer_instance

/-- Boolean form of the confidence order. -/
def better (a b : NormalizedRecord) : Bool := decide (Dominates a b)

/-- One step of best-supplier selection for a field getter `get`: a record
that does not supply the field is ignored; a supplying record replaces the
candidate only when it is strictly better. -/
def pickStep {α : Type} (get : NormalizedRecord → Option α)
    (acc : Option NormalizedRecord) (r : NormalizedRecord) : Option NormalizedRecord :=
  if (get r).isSome then
    match acc with
    | none => some r
    | some b => if better r b then some r else some b
  else acc

/-- Modelled from the spec: the highest-confidence contributing source
supplying a field (§4.2 scalar resolution). -/
def pickBest {α : Type} (get : NormalizedRecord → Option α)
    (l : List NormalizedRecord) : Option NormalizedRecord :=
  l.foldl (pickStep get) none

/-- The merged value of one field of a cluster. -/
def fieldVal {α : Type} (get : NormalizedRecord → Option α)
    (l : List NormalizedRecord) : Option α :=
  (pickBest get l).bind get

/-- Keep the first element for every key, dropping later same-key ones. -/
def dedupBy {α κ : Type} [DecidableEq κ] (key : α → κ) : List α → List α
  | [] => []
  | a :: as => a :: dedupBy key (as.filter fun b => key b ≠ key a)
termination_by l => l.length
decreasing_by
  simp only [List.length_cons]
  exact Nat.lt_succ_of_le (List.length_filter_le _ _)

/-- Modelled from the spec: the merged field values of a resolved cluster
(§4.2) — scalars from the highest-confidence supplier, the `lat`/`lon`
pair kept together from a single source, list fields unioned with
case-insensitive de-duplication in first-seen order. -/
structure EntityFields where
  etype : Option EntityType
  name : Option String
  website : Option String
  description : Option String
  country : Option String
  city : Option String
  founded_year : Option Nat
  coords : Option (ℚ × ℚ)
  domains : List String
deriving DecidableEq

/-- Field-by-field merge of a resolved cluster (§4.2). -/
def mergedFields (l : List NormalizedRecord) : EntityFields :=
  { etype := fieldVal (fun r => some r.etype) l
    name := fieldVal (fun r => some r.name) l
    website := fieldVal (fun r => r.website) l
    description := fieldVal (fun r => r.description) l
    country := fieldVal (fun r => r.country) l
    city := fieldVal (fun r => r.city) l
    founded_year := fieldVal (fun r => r.founded_year) l
    coords := fieldVal (fun r => r.coords) l
    domains := dedupBy (fun d => lowerL d.data) ((l.map (fun r => r.domains)).flatten) }

/-- Modelled from the spec: a batch of records from the at-least-once
upstream — a source never delivers two *different* records with the same
`source_id` and the same `fetched_at` (§3: RawRecords are immutable, only
superseded by newer fetches from the same `source_id`). -/
def goodBatch (l : List NormalizedRecord) : Prop :=
  ∀ a ∈ l, ∀ b ∈ l, a.source_id = b.source_id → a.fetched_at = b.fetched_at → a = b

/-- The more recently fetched of two records (the first on a tie). -/
def latest (a r : NormalizedRecord) : NormalizedRecord :=
  if a.fetched_at < r.fetched_at then r else a

instance (l : List NormalizedRecord) : Decidable (goodBatch l) := by
  unfold goodBatch; infer_instance

/-- One step of latest-fetch selection for a fixed `source_id`. -/
def bestStep (sid : Nat) (acc : Option NormalizedRecord)
    (r : NormalizedRecord) : Option NormalizedRecord :=
  if r.source_id = sid then
    match acc with
    | none => some r
    | some b => some (latest b r)
  else acc

/-- The surviving (most recently fetched) record of one source in a batch. -/
def bestFor (l : List NormalizedRecord) (sid : Nat) : Option NormalizedRecord :=
  l.foldl (bestStep sid) none

/-- The distinct source ids of a batch. -/
def sourceIds (l : List NormalizedRecord) : List Nat :=
  (l.map (fun r => r.source_id)).dedup

/-- Modelled from the spec: per-source supersede (§3) — for every source
only its most recent fetch takes part in resolution; the result is listed
in ascending `source_id` order, which makes it a canonical form of the
batch. -/
def supersede (l : List NormalizedRecord) : List NormalizedRecord :=
  (List.insertionSort (· ≤ ·) (sourceIds l)).filterMap (bestFor l)

/-- The distinct blocking keys of a batch. -/
def blockKeys (s : List NormalizedRecord) : List (Bool × List Char) :=
  (s.map blockKey).dedup

/-- Modelled from the spec: the candidate clusters of a batch (§4.2).
Within a block every pair of records satisfies the match rule (proved
below), so the union-find transitive closure of `matchRec` partitions a
batch exactly into its blocks. -/
def clustersOf (s : List NormalizedRecord) : List (List NormalizedRecord) :=
  (blockKeys s).map fun k => s.filter fun r => blockKey r == k

/-- Modelled from the spec: the per-entity lifecycle states (§4.4). -/
inductive EntityStatus where
  | active
  | flagged
  | archived
deriving DecidableEq

/-- Modelled from the spec: a canonical Entity (§3), carrying its
contributing records as provenance; its field values are derived from
them by `mergedFields`. -/
structure Entity where
  id : Nat
  createdAt : Nat
  updatedAt : Nat
  status : EntityStatus
  score : Option ℚ
  recs : List NormalizedRecord
deriving DecidableEq

/-- Modelled from the spec: the canonical store (§3, §4.2 persist step). -/
structure Store where
  entities : List Entity
  nextId : Nat
deriving DecidableEq

/-- The empty canonical store. -/
def emptyStore : Store := ⟨[], 0⟩

/-- Modelled from the spec: a cluster is high-confidence when it carries a
record of priority at least that of a permissioned API (§4.4 reactivation,
§9 recommended archived-entity policy). -/
def highConfidence (C : List NormalizedRecord) : Bool :=
  C.any fun r => 3 ≤ r.source_type.priority

/-- Modelled from the spec: a cluster matches an existing entity by shared
`contributing_sources` overlap or by a matching blocking key (§4.2 step 4). -/
def entityMatches (C : List NormalizedRecord) (e : Entity) : Bool :=
  (e.recs.any fun er => C.any fun cr => cr.source_id == er.source_id) ||
  (e.recs.any fun er => C.any fun cr => blockKey cr == blockKey er)

/-- Modelled from the spec: archived entities are excluded from default
matching unless the incoming cluster is high-confidence (§9). -/
def considerEntity (C : List NormalizedRecord) (e : Entity) : Bool :=
  (e.status != .archived || highConfidence C) && entityMatches C e

/-- Modelled from the spec: update an existing entity in place (§4.2 step
4): provenance is extended (superseded per source), `id` and `created_at`
are preserved, and a high-confidence cluster reactivates an archived
entity (§4.4). -/
def updateEntity (now : Nat) (C : List NormalizedRecord) (e : Entity) : Entity :=
  { e with
    recs := supersede (e.recs ++ C)
    updatedAt := now
    status := if e.status == .archived && highConfidence C then .active else e.status }

/-- Modelled from the spec: a freshly created entity (§4.2 step 4). -/
def newEntity (id now : Nat) (C : List NormalizedRecord) : Entity :=
  ⟨id, now, now, .active, none, C⟩

/-- Update the first entity of the list the cluster matches, if any. -/
def updFirst (now : Nat) (C : List NormalizedRecord) :
    List Entity → Option (List Entity)
  | [] => none
  | e :: es =>
    if considerEntity C e then some (updateEntity now C e :: es)
    else (updFirst now C es).map fun es' => e :: es'

/-- Modelled from the spec: persist one resolved cluster (§4.2 step 4) —
update the matching entity in place, or create a new entity with a
freshly minted id. -/
def applyCluster (now : Nat) (S : Store) (C : List NormalizedRecord) : Store :=
  match updFirst now C S.entities with
  | some es => { S with entities := es }
  | none => ⟨S.entities ++ [newEntity S.nextId now C], S.nextId + 1⟩

/-- Modelled from the spec: one Entity Resolver run over a batch (§4.2) —
supersede per source, block, cluster, then persist cluster by cluster. -/
def run (now : Nat) (S : Store) (batch : List NormalizedRecord) : Store :=
  (clustersOf (supersede batch)).foldl (applyCluster now) S

/-- The confidence order exactly as the spec states it for scalar conflict
resolution: strictly higher source priority, or equal priority and a more
recent `fetched_at` (§4.2). -/
def PriorityDom (a b : NormalizedRecord) : Prop :=
  b.source_type.priority < a.source_type.priority ∨
    (a.source_type.priority = b.source_type.priority ∧ b.fetched_at < a.fetched_at)

instance (a b : NormalizedRecord) : Decidable (PriorityDom a b) := by
  unfold PriorityDom; infer_instance

/-- The candidate kept by best-supplier selection so far: nothing yet, the
dominant record itself, or something it strictly beats. -/
def PickInv (r1 : NormalizedRecord) (acc : Option NormalizedRecord) : Prop :=
  acc = none ∨ acc = some r1 ∨ ∃ b, acc = some b ∧ better r1 b = true

/-- A canonical record list: strictly ascending `source_id`s — the shape
`supersede` produces. -/
def Canon (c : List NormalizedRecord) : Prop :=
  List.Pairwise (fun a b => a.source_id < b.source_id) c

/-- Two clusters that can never be confused by the persist step: no shared
source id and no shared blocking key. -/
def DisjCl (C C' : List NormalizedRecord) : Prop :=
  ∀ a ∈ C, ∀ b ∈ C', a.source_id ≠ b.source_id ∧ blockKey a ≠ blockKey b

/-- The entities a run creates from clusters none of which matches the
store, ids minted from `base` on. -/
def freshEntities (now base : Nat) : List (List NormalizedRecord) → List Entity
  | [] => []
  | C :: tl => newEntity base now C :: freshEntities now (base + 1) tl

/-- Set only the `updated_at` stamp of an entity. -/
def touchTime (t : Nat) (e : Entity) : Entity := { e with updatedAt := t }

/-- Run a sequence of (batch, timestamp) resolver runs over a store. -/
def runMany (S : Store) (batches : List (List NormalizedRecord × Nat)) : Store :=
  batches.foldl (fun T p => run p.2 T p.1) S

/-- Everything of an entity except its `updated_at`, together with its
derived field values. -/
def entityView (e : Entity) :
    Nat × Nat × EntityStatus × Option ℚ × List NormalizedRecord × EntityFields :=
  (e.id, e.createdAt, e.status, e.score, e.recs, mergedFields e.recs)

/-- The store modulo `updated_at`. -/
def storeView (S : Store) :
    List (Nat × Nat × EntityStatus × Option ℚ × List NormalizedRecord × EntityFields) :=
  S.entities.map entityView

/-- Modelled from the spec: a per-entity signal bundle (§3, §4.3) with the
four growth signals; an absent key means unknown, never zero. -/
structure SignalBundle where
  traffic : Option Nat
  github : Option Nat
  hiring : Option Nat
  press : Option Nat
deriving DecidableEq

/-- Modelled from the spec: a monotonic saturating transform (§4.3) taking
a raw signal value to a `[0,1]` sub-score, capped at a source-specific
ceiling. -/
def satScore (cap v : Nat) : ℚ := ((min v cap : Nat) : ℚ) / (cap : ℚ)

/-- Source-specific ceiling for the web-traffic signal. -/
def trafficCap : Nat := 1000

/-- Source-specific ceiling for the code-repository signal. -/
def githubCap : Nat := 500

/-- Source-specific ceiling for the hiring signal. -/
def hiringCap : Nat := 50

/-- Source-specific ceiling for the press-mention signal. -/
def pressCap : Nat := 100

/-- Fixed weight of the web-traffic signal (weights sum to 1). -/
def trafficWeight : ℚ := 3/10

/-- Fixed weight of the code-repository signal. -/
def githubWeight : ℚ := 3/10

/-- Fixed weight of the hiring signal. -/
def hiringWeight : ℚ := 1/5

/-- Fixed weight of the press-mention signal. -/
def pressWeight : ℚ := 1/5

/-- The (weight, sub-score) pairs of the signals actually present. -/
def presentParts (b : SignalBundle) : List (ℚ × ℚ) :=
  [b.traffic.map fun v => (trafficWeight, satScore trafficCap v),
   b.github.map fun v => (githubWeight, satScore githubCap v),
   b.hiring.map fun v => (hiringWeight, satScore hiringCap v),
   b.press.map fun v => (pressWeight, satScore pressCap v)].filterMap id

/-- Sum of the weights of the present signals. -/
def weightSum (ps : List (ℚ × ℚ)) : ℚ := (ps.map fun p => p.1).sum

/-- Weighted sum of the present sub-scores. -/
def weightedSum (ps : List (ℚ × ℚ)) : ℚ := (ps.map fun p => p.1 * p.2).sum

/-- Modelled from the spec: `computeGrowthScore(entity, signals) -> score
∈ [0,100] | absent` (§4.3) — the Signal Aggregator implementation is
missing from the sources.  The composite is the weighted sum of the
present sub-scores with the weights re-normalized over only the present
signals; with no signal present the score is absent. -/
def computeGrowthScore (_e : Entity) (b : SignalBundle) : Option ℚ :=
  match presentParts b with
  | [] => none
  | ps => some (100 * weightedSum ps / weightSum ps)

/-- The naive composite kept for comparison, following the spec's words in
§8 (missing-signal fairness): original weights, missing signals treated as
contributing zero, no re-normalization. -/
def naiveScore (_e : Entity) (b : SignalBundle) : Option ℚ :=
  match presentParts b with
  | [] => none
  | ps => some (100 * weightedSum ps)

/-- Modelled from the spec: the default staleness window in days (§4.4). -/
def defaultStalenessWindow : Nat := 180

/-- An entity's growth score is below threshold or absent (§4.4). -/
def scoreBelow (threshold : ℚ) (e : Entity) : Bool :=
  match e.score with
  | none => true
  | some q => decide (q < threshold)

/-- Modelled from the spec: the archival transition of the Quality Manager
(§4.4) — an entity that has received no contributing-source update for
longer than the staleness window and has a below-threshold or absent
growth score is demoted to `archived`; all other entities are untouched. -/
def auditEntity (now window : Nat) (threshold : ℚ) (e : Entity) : Entity :=
  if e.status != .archived && decide (window < now - e.updatedAt) && scoreBelow threshold e
  then { e with status := .archived } else e

/-- Modelled from the spec: the archival portion of `runQualityAudit`
(§4.4) — the flagging transitions (missing display fields, implausible
funding rounds, user disputes) are outside the claims and are not
modelled; entities are never deleted. -/
def runQualityAudit (now window : Nat) (threshold : ℚ) (S : Store) : Store :=
  { S with entities := S.entities.map (auditEntity now window threshold) }

end Pipeline

namespace Frontend

/-- An entity as loaded by the map explorer
(`DocumentCanvas.tsx`, `interface Entity` restricted to the fields the
grouping logic uses); `etype` embeds the TypeScript field `type`. -/
structure MapEntity where
  id : Nat
  name : String
  etype : String
  lat : ℚ
  lon : ℚ
deriving DecidableEq

/-- A marker cluster (`DocumentCanvas.tsx`, `interface Cluster`). -/
structure MapCluster where
  lat : ℚ
  lon : ℚ
  count : Nat
  entities : List MapEntity
deriving DecidableEq

/-- Insert one element into key-grouped lists, JavaScript `Map` style:
append to the existing group of its key, else open a new group at the end. -/
def insertGrouped {α κ : Type} [DecidableEq κ] (k : κ) (a : α) :
    List (κ × List α) → List (κ × List α)
  | [] => [(k, [a])]
  | (k', as) :: rest =>
    if k' = k then (k', as ++ [a]) :: rest else (k', as) :: insertGrouped k a rest

/-- Group a list by a key, preserving both the insertion order of groups
and the element order inside a group — the behavior of filling a
JavaScript `Map<κ, α[]>` with `forEach` + `push`. -/
def groupByKey {α κ : Type} [DecidableEq κ] (key : α → κ) (l : List α) :
    List (κ × List α) :=
  l.foldl (fun gs a => insertGrouped (key a) a gs) []

/-- `lat.toFixed(5)`: the coordinate rounded to five decimal places, as an
integer number of 1e-5 units (`DocumentCanvas.tsx` line 524, the template
string key). -/
def rnd5 (q : ℚ) : ℤ := round (q * 100000)

/-- The coordinate key used by `loadMapData` (line 524):
`(lat.toFixed(5), lon.toFixed(5))`. -/
def coordKey (e : MapEntity) : ℤ × ℤ := (rnd5 e.lat, rnd5 e.lon)

/-- `e.type || 'startup'` (line 536): an empty (falsy) type string falls
back to `'startup'`. -/
def effType (e : MapEntity) : String :=
  if e.etype = "" then "startup" else e.etype

/-- One cluster per type group (`DocumentCanvas.tsx` lines 543-548):
`lat`/`lon` come from the group's first entity (`typeEntities[0]`); the
empty case never arises (`Map` groups are nonempty) and is totalized with
a zero cluster. -/
def typeGroupCluster (p : String × List MapEntity) : MapCluster :=
  match p.2 with
  | [] => ⟨0, 0, 0, []⟩
  | e :: _ => ⟨e.lat, e.lon, p.2.length, p.2⟩

/-- The per-coordinate-group cluster construction of `loadMapData`
(lines 531-558): split a coordinate group by entity type when more than
one type is present, else emit a single cluster. -/
def clustersOfGroup (ents : List MapEntity) : List MapCluster :=
  let tgs := groupByKey effType ents
  if 1 < tgs.length then
    tgs.map typeGroupCluster
  else
    match ents with
    | [] => []
    | e :: _ => [⟨e.lat, e.lon, ents.length, ents⟩]

/-- The coordinate-grouping step of `loadMapData`
(`DocumentCanvas.tsx` lines 522-558): group by the 5-decimal coordinate
key, build clusters per group, flatten. -/
def buildClusters (l : List MapEntity) : List MapCluster :=
  ((groupByKey coordKey l).map fun p => clustersOfGroup p.2).flatten

/-- `filterClustersByType` (`DocumentCanvas.tsx` lines 372-382): `'all'`
returns the input unchanged; otherwise entities are filtered by exact
type, counts recomputed, and empty clusters dropped. -/
def filterClustersByType (data : List MapCluster) (t : String) : List MapCluster :=
  if t = "all" then data
  else
    (((data.map fun c => { c with entities := c.entities.filter fun e => e.etype == t, count := 0 }).map
      fun c => { c with count := c.entities.length }).filter
      fun c => 0 < c.entities.length)

/-- A stored project (`documentExtractor.ts`, `interface Project`); the
untyped `projectState` and `messages` fields are embedded as strings. -/
structure Project where
  id : String
  name : String
  createdAt : String
  updatedAt : String
  currentPhase : String
  projectState : String
  messages : List String
deriving DecidableEq

/-- `projectManager.saveProject` (`documentExtractor.ts` lines 159-172)
acting on the stored list: `findIndex` on equal id then replace in place,
else push at the end. -/
def saveProject (projects : List Project) (p : Project) : List Project :=
  match projects.findIdx? fun q => q.id == p.id with
  | some i => projects.set i p
  | none => projects ++ [p]

/-- The entity lists carried by a cluster list, concatenated. -/
def joinVals {α κ : Type} (gs : List (κ × List α)) : List α :=
  (gs.map fun p => p.2).flatten

end Frontend

namespace Pipeline

/-- A concrete raw record whose payload has a valid name and type but a
website that fails the URL check. -/
def rawBadUrl : RawRecord :=
  { source_id := 1, source_type := .webCrawl, fetched_at := 0,
    payload :=
      { name := "Acme", rtype := "startup", website := some "not a url",
        description := none, country := none, city := none,
        founded_year := none, domains := [], coords := none } }

/-- A concrete web-crawl record for the worked examples. -/
def recA : NormalizedRecord :=
  { source_id := 1, source_type := .webCrawl, fetched_at := 10,
    etype := .startup, name := "Acme Inc", website := some "https://www.acme.com/about",
    description := some "AI logistics", country := some "KR", city := none,
    founded_year := none, domains := ["ai"], coords := none }

/-- A concrete government-data record with the same website domain as
`recA` but a conflicting name. -/
def recB : NormalizedRecord :=
  { source_id := 2, source_type := .publicGov, fetched_at := 5,
    etype := .startup, name := "ACME", website := some "http://acme.com",
    description := none, country := some "KR", city := none,
    founded_year := some 2020, domains := [], coords := none }

/-- A concrete user-correction record on the same domain, used to
reactivate an archived entity. -/
def recU : NormalizedRecord :=
  { source_id := 3, source_type := .userCorrection, fetched_at := 300,
    etype := .startup, name := "Acme", website := some "https://acme.com",
    description := none, country := none, city := none,
    founded_year := none, domains := [], coords := none }

/-- A concrete stale low-score entity for the archival example. -/
def staleEntity : Entity := ⟨7, 0, 0, .active, some 10, [recA]⟩

end Pipeline

namespace Frontend

/-- Concrete map entities for the grouping example. -/
def mapE1 : MapEntity := ⟨1, "A", "startup", 375665/10000, 1269780/10000⟩

/-- Second map entity: same coordinates as `mapE1`, different type. -/
def mapE2 : MapEntity := ⟨2, "B", "investor", 375665/10000, 1269780/10000⟩

/-- Third map entity: a different coordinate. -/
def mapE3 : MapEntity := ⟨3, "C", "startup", 35, 129⟩

/-- A concrete stored project. -/
def projP : Project := ⟨"p1", "alpha", "d0", "d0", "idea", "s", []⟩

/-- An update of `projP` under the same id. -/
def projP' : Project := ⟨"p1", "alpha2", "d0", "d1", "validation", "s2", []⟩

/-- A second stored project with a different id. -/
def projQ : Project := ⟨"p2", "beta", "d0", "d0", "idea", "s", []⟩

end Frontend

namespace Pipeline

/-- The saturating transform never goes below 0. -/
theorem satScore_nonneg (cap v : Nat) : 0 ≤ satScore cap v := by
  unfold satScore
  positivity

/-- The saturating transform never exceeds 1. -/
theorem satScore_le_one (cap v : Nat) (h : 0 < cap) : satScore cap v ≤ 1 := by
  unfold satScore
  rw [div_le_one (by exact_mod_cast h)]
  exact_mod_cast Nat.min_le_right v cap

/-- Every (weight, sub-score) pair of a bundle has a positive weight and a
sub-score in `[0,1]`. -/
theorem presentParts_bounds (b : SignalBundle) :
    ∀ p ∈ presentParts b, 0 < p.1 ∧ 0 ≤ p.2 ∧ p.2 ≤ 1 := by
  intro p hp
  unfold presentParts at hp
  simp only [List.filterMap, id] at hp
  rcases b with ⟨t, g, h, pr⟩
  rcases t with _ | vt <;> rcases g with _ | vg <;>
    rcases h with _ | vh <;> rcases pr with _ | vp <;>
    simp only [Option.map_none', Option.map_some', List.filterMap_cons_none,
      List.filterMap_cons_some, List.filterMap_nil, List.mem_cons,
      List.not_mem_nil, or_false, List.mem_singleton] at hp <;>
    rcases hp with rfl | rfl | rfl | rfl <;>
    refine ⟨by norm_num [trafficWeight, githubWeight, hiringWeight, pressWeight], ?_, ?_⟩ <;>
    first
      | exact satScore_nonneg _ _
      | exact satScore_le_one _ _ (by norm_num [trafficCap, githubCap, hiringCap, pressCap])

/-- The weight sum of pairs with positive weights is nonnegative. -/
theorem weightSum_nonneg (ps : List (ℚ × ℚ)) (h : ∀ p ∈ ps, 0 < p.1) :
    0 ≤ weightSum ps := by
  induction ps with
  | nil => simp [weightSum]
  | cons a t ih =>
    have ha := h a (List.mem_cons_self a t)
    have ht := ih fun p hp => h p (List.mem_cons_of_mem a hp)
    simp only [weightSum, List.map_cons, List.sum_cons]
    have ht' : 0 ≤ (List.map (fun p => p.1) t).sum := ht
    linarith

/-- The weight sum of a nonempty pair list with positive weights is
positive. -/
theorem weightSum_pos (ps : List (ℚ × ℚ)) (h : ∀ p ∈ ps, 0 < p.1)
    (hne : ps ≠ []) : 0 < weightSum ps := by
  cases ps with
  | nil => exact absurd rfl hne
  | cons a t =>
    have ha := h a (List.mem_cons_self a t)
    have ht := weightSum_nonneg t fun p hp => h p (List.mem_cons_of_mem a hp)
    simp only [weightSum, List.map_cons, List.sum_cons]
    have ht' : 0 ≤ (List.map (fun p => p.1) t).sum := ht
    linarith

/-- Weighted sums of nonnegative pairs are nonnegative. -/
theorem weightedSum_nonneg (ps : List (ℚ × ℚ))
    (h : ∀ p ∈ ps, 0 ≤ p.1 ∧ 0 ≤ p.2) : 0 ≤ weightedSum ps := by
  induction ps with
  | nil => simp [weightedSum]
  | cons a t ih =>
    have ha := h a (List.mem_cons_self a t)
    have ht := ih fun p hp => h p (List.mem_cons_of_mem a hp)
    simp only [weightedSum, List.map_cons, List.sum_cons]
    have hm := mul_nonneg ha.1 ha.2
    have ht' : 0 ≤ (List.map (fun p => p.1 * p.2) t).sum := ht
    linarith

/-- The weighted sum is at most the weight sum when sub-scores are at
most 1. -/
theorem weightedSum_le_weightSum (ps : List (ℚ × ℚ))
    (h : ∀ p ∈ ps, 0 ≤ p.1 ∧ p.2 ≤ 1) : weightedSum ps ≤ weightSum ps := by
  induction ps with
  | nil => simp [weightedSum, weightSum]
  | cons a t ih =>
    have ha := h a (List.mem_cons_self a t)
    have ht := ih fun p hp => h p (List.mem_cons_of_mem a hp)
    simp only [weightedSum, weightSum, List.map_cons, List.sum_cons]
    have h1 : a.1 * a.2 ≤ a.1 := mul_le_of_le_one_right ha.1 ha.2
    have h2 : weightedSum t ≤ weightSum t := ht
    simp only [weightedSum, weightSum] at h2
    linarith

/-- No signal present is the same as an empty present-part list. -/
theorem presentParts_eq_nil (b : SignalBundle) :
    presentParts b = [] ↔
      b.traffic = none ∧ b.github = none ∧ b.hiring = none ∧ b.press = none := by
  rcases b with ⟨t, g, h, pr⟩
  rcases t with _ | vt <;> rcases g with _ | vg <;>
    rcases h with _ | vh <;> rcases pr with _ | vp <;>
    simp [presentParts]

/-- C2: for every entity and every signal bundle, `computeGrowthScore`
returns `absent` exactly when no signal is present, and any returned score
lies in the closed interval `[0,100]`. -/
theorem growth_score_contract (e : Entity) (b : SignalBundle) :
    (computeGrowthScore e b = none ↔
      b.traffic = none ∧ b.github = none ∧ b.hiring = none ∧ b.press = none) ∧
    ∀ q, computeGrowthScore e b = some q → 0 ≤ q ∧ q ≤ 100 := by
  constructor
  · rw [← presentParts_eq_nil]
    unfold computeGrowthScore
    cases hps : presentParts b with
    | nil => simp
    | cons a t => simp
  · intro q hq
    unfold computeGrowthScore at hq
    cases hps : presentParts b with
    | nil => rw [hps] at hq; exact absurd hq (by simp)
    | cons a t =>
      rw [hps] at hq
      have hb : ∀ p ∈ a :: t, 0 < p.1 ∧ 0 ≤ p.2 ∧ p.2 ≤ 1 := by
        rw [← hps]; exact presentParts_bounds b
      have hW : 0 < weightSum (a :: t) :=
        weightSum_pos _ (fun p hp => (hb p hp).1) (by simp)
      have hS : 0 ≤ weightedSum (a :: t) :=
        weightedSum_nonneg _ fun p hp => ⟨le_of_lt (hb p hp).1, (hb p hp).2.1⟩
      have hSW : weightedSum (a :: t) ≤ weightSum (a :: t) :=
        weightedSum_le_weightSum _ fun p hp => ⟨le_of_lt (hb p hp).1, (hb p hp).2.2⟩
      have hqe : q = 100 * weightedSum (a :: t) / weightSum (a :: t) := by
        exact (Option.some_injective _ hq).symm
      subst hqe
      constructor
      · positivity
      · rw [div_le_iff₀ hW]
        nlinarith
/-- C2 witness: a bundle with one present signal gets a score in bounds,
and the all-absent bundle gets an absent score. -/
theorem growth_score_contract_witness :
    (computeGrowthScore staleEntity ⟨none, none, none, none⟩ = none) ∧
    (0:ℚ) ≤ 50 ∧ (50:ℚ) ≤ 100 ∧
    computeGrowthScore staleEntity ⟨some 500, none, none, none⟩ = some 50 := by
  have h1 := (growth_score_contract staleEntity ⟨none, none, none, none⟩).1.mpr
    ⟨rfl, rfl, rfl, rfl⟩
  have hsc : computeGrowthScore staleEntity ⟨some 500, none, none, none⟩ = some 50 := by
    simp only [computeGrowthScore, presentParts, Option.map_some', Option.map_none',
      List.filterMap_cons_some, List.filterMap_cons_none, List.filterMap_nil,
      weightedSum, weightSum, List.map_cons, List.map_nil, List.sum_cons, List.sum_nil,
      satScore, trafficWeight, trafficCap]
    norm_num [List.filterMap]
  have h2 := (growth_score_contract staleEntity ⟨some 500, none, none, none⟩).2 50 hsc
  exact ⟨h1, h2.1, h2.2, hsc⟩

/-- The weights of the present signals sum to at most 1 (the four fixed
weights sum to exactly 1). -/
theorem weightSum_le_one (b : SignalBundle) : weightSum (presentParts b) ≤ 1 := by
  rcases b with ⟨t, g, h, pr⟩
  rcases t with _ | vt <;> rcases g with _ | vg <;>
    rcases h with _ | vh <;> rcases pr with _ | vp <;>
    simp [presentParts, weightSum, trafficWeight, githubWeight, hiringWeight,
      pressWeight, List.filterMap] <;> norm_num

/-- When every present sub-score equals `v`, the weighted sum collapses. -/
theorem weightedSum_const (ps : List (ℚ × ℚ)) (v : ℚ)
    (h : ∀ p ∈ ps, p.2 = v) : weightedSum ps = v * weightSum ps := by
  induction ps with
  | nil => simp [weightedSum, weightSum]
  | cons a t ih =>
    have ha := h a (List.mem_cons_self a t)
    have ht := ih fun p hp => h p (List.mem_cons_of_mem a hp)
    simp only [weightedSum, weightSum, List.map_cons, List.sum_cons] at *
    rw [ha, ht]
    ring

/-- An entity whose present sub-scores all equal `v` scores `100 * v`. -/
theorem growth_score_const (e : Entity) (b : SignalBundle) (v : ℚ)
    (hne : presentParts b ≠ [])
    (h : ∀ p ∈ presentParts b, p.2 = v) :
    computeGrowthScore e b = some (100 * v) := by
  unfold computeGrowthScore
  cases hps : presentParts b with
  | nil => exact absurd hps hne
  | cons a t =>
    have hb : ∀ p ∈ a :: t, 0 < p.1 ∧ 0 ≤ p.2 ∧ p.2 ≤ 1 := by
      rw [← hps]; exact presentParts_bounds b
    have hW : 0 < weightSum (a :: t) :=
      weightSum_pos _ (fun p hp => (hb p hp).1) (by simp)
    have hc : weightedSum (a :: t) = v * weightSum (a :: t) :=
      weightedSum_const _ v (hps ▸ h)
    show some (100 * weightedSum (a :: t) / weightSum (a :: t)) = some (100 * v)
    rw [hc]
    congr 1
    field_simp
    ring

/-- C4: the composite is the weighted sum of present sub-scores with
re-normalized weights; hence (i) for every bundle the re-normalized score
is at least the naive score that keeps the original weights and treats
missing signals as zero — in particular an entity with 1 of 4 signals is
not penalized — and (ii) two entities whose present sub-scores all have
the same value get the same composite, regardless of how many signals
each has. -/
theorem missing_signal_fairness :
    (∀ (e : Entity) (b : SignalBundle) (qn qr : ℚ),
        naiveScore e b = some qn → computeGrowthScore e b = some qr → qn ≤ qr) ∧
    (∀ (e1 e2 : Entity) (b1 b2 : SignalBundle) (v : ℚ),
        presentParts b1 ≠ [] → presentParts b2 ≠ [] →
        (∀ p ∈ presentParts b1, p.2 = v) → (∀ p ∈ presentParts b2, p.2 = v) →
        computeGrowthScore e1 b1 = computeGrowthScore e2 b2) := by
  constructor
  · intro e b qn qr hn hr
    unfold naiveScore at hn
    unfold computeGrowthScore at hr
    cases hps : presentParts b with
    | nil => rw [hps] at hn; exact absurd hn (by simp)
    | cons a t =>
      rw [hps] at hn hr
      have hb : ∀ p ∈ a :: t, 0 < p.1 ∧ 0 ≤ p.2 ∧ p.2 ≤ 1 := by
        rw [← hps]; exact presentParts_bounds b
      have hW : 0 < weightSum (a :: t) :=
        weightSum_pos _ (fun p hp => (hb p hp).1) (by simp)
      have hW1 : weightSum (a :: t) ≤ 1 := hps ▸ weightSum_le_one b
      have hS : 0 ≤ weightedSum (a :: t) :=
        weightedSum_nonneg _ fun p hp => ⟨le_of_lt (hb p hp).1, (hb p hp).2.1⟩
      have hqn : qn = 100 * weightedSum (a :: t) := (Option.some_injective _ hn).symm
      have hqr : qr = 100 * weightedSum (a :: t) / weightSum (a :: t) :=
        (Option.some_injective _ hr).symm
      subst hqn hqr
      rw [le_div_iff₀ hW]
      nlinarith
  · intro e1 e2 b1 b2 v h1 h2 hv1 hv2
    rw [growth_score_const e1 b1 v h1 hv1, growth_score_const e2 b2 v h2 hv2]

/-- C4 witness: a 1-of-4-signal bundle and a 4-of-4-signal bundle whose
present sub-scores are all 1 receive the same composite score, and the
1-signal bundle beats its naive score 30 with re-normalized score 100. -/
theorem missing_signal_fairness_witness :
    (naiveScore staleEntity ⟨some 1000, none, none, none⟩ = some 30 ∧
     computeGrowthScore staleEntity ⟨some 1000, none, none, none⟩ = some 100 ∧
     (30:ℚ) ≤ 100) ∧
    computeGrowthScore staleEntity ⟨some 1000, none, none, none⟩ =
      computeGrowthScore staleEntity ⟨some 1000, some 500, some 50, some 100⟩ := by
  have hn : naiveScore staleEntity ⟨some 1000, none, none, none⟩ = some 30 := by
    norm_num [naiveScore, presentParts, List.filterMap, weightedSum, satScore,
      trafficWeight, trafficCap]
  have hr : computeGrowthScore staleEntity ⟨some 1000, none, none, none⟩ = some 100 := by
    norm_num [computeGrowthScore, presentParts, List.filterMap, weightedSum, weightSum,
      satScore, trafficWeight, trafficCap]
  refine ⟨⟨hn, hr, ?_⟩, ?_⟩
  · exact missing_signal_fairness.1 staleEntity ⟨some 1000, none, none, none⟩ 30 100 hn hr
  · refine missing_signal_fairness.2 staleEntity staleEntity _ _ 1 (by simp [presentParts])
      (by simp [presentParts]) ?_ ?_ <;>
    · intro p hp
      simp only [presentParts, List.filterMap, Option.map_some', Option.map_none'] at hp
      fin_cases hp <;>
        norm_num [satScore, trafficCap, githubCap, hiringCap, pressCap]

/-- `normalize` rejects with `MissingName` exactly on an empty trimmed
name. -/
theorem normalize_missing_name (raw : RawRecord) :
    normalize raw = .error .MissingName ↔ trimStr raw.payload.name = "" := by
  unfold normalize
  by_cases h1 : trimStr raw.payload.name = ""
  · simp [h1]
  · rw [if_neg h1]
    cases hl : typeTable.lookup raw.payload.rtype with
    | none => simp [h1]
    | some t =>
      by_cases h2 : checkUrl raw.payload.website = false
      · simp [h1, h2]
      · by_cases h3 : checkCoords raw.payload.coords = false
        · simp [h1, h2, h3]
        · simp [h1, h2, h3]

/-- `normalize` rejects with `UnknownType` exactly on an unmapped type
(given a non-empty name). -/
theorem normalize_unknown_type (raw : RawRecord) :
    normalize raw = .error .UnknownType ↔
      trimStr raw.payload.name ≠ "" ∧ typeTable.lookup raw.payload.rtype = none := by
  unfold normalize
  by_cases h1 : trimStr raw.payload.name = ""
  · simp [h1]
  · rw [if_neg h1]
    cases hl : typeTable.lookup raw.payload.rtype with
    | none => simp [h1]
    | some t =>
      by_cases h2 : checkUrl raw.payload.website = false
      · simp [h1, h2]
      · by_cases h3 : checkCoords raw.payload.coords = false
        · simp [h1, h2, h3]
        · simp [h1, h2, h3]

/-- `normalize` rejects with `MalformedURL` exactly on a malformed present
website (given a valid name and type). -/
theorem normalize_malformed_url (raw : RawRecord) :
    normalize raw = .error .MalformedURL ↔
      trimStr raw.payload.name ≠ "" ∧ (typeTable.lookup raw.payload.rtype).isSome ∧
      checkUrl raw.payload.website = false := by
  unfold normalize
  by_cases h1 : trimStr raw.payload.name = ""
  · simp [h1]
  · rw [if_neg h1]
    cases hl : typeTable.lookup raw.payload.rtype with
    | none => simp [h1]
    | some t =>
      by_cases h2 : checkUrl raw.payload.website = false
      · simp [h1, h2]
      · by_cases h3 : checkCoords raw.payload.coords = false
        · simp [h1, h2, h3]
        · simp [h1, h2, h3]

/-- `normalize` rejects with `MalformedCoordinate` exactly on a malformed
present coordinate pair (given a valid name, type and website). -/
theorem normalize_malformed_coordinate (raw : RawRecord) :
    normalize raw = .error .MalformedCoordinate ↔
      trimStr raw.payload.name ≠ "" ∧ (typeTable.lookup raw.payload.rtype).isSome ∧
      checkUrl raw.payload.website = true ∧ checkCoords raw.payload.coords = false := by
  unfold normalize
  by_cases h1 : trimStr raw.payload.name = ""
  · simp [h1]
  · rw [if_neg h1]
    cases hl : typeTable.lookup raw.payload.rtype with
    | none => simp [h1]
    | some t =>
      by_cases h2 : checkUrl raw.payload.website = false
      · simp [h1, h2]
      · by_cases h3 : checkCoords raw.payload.coords = false
        · simp [h1, h2, h3, Bool.ne_false_iff.mp h2]
        · simp [h1, h2, h3]

/-- `normalize` always returns a normalized record or one of the four
enumerated reasons. -/
theorem normalize_total (raw : RawRecord) :
    (∃ n, normalize raw = .ok n) ∨
      normalize raw = .error .MissingName ∨ normalize raw = .error .UnknownType ∨
      normalize raw = .error .MalformedURL ∨ normalize raw = .error .MalformedCoordinate := by
  unfold normalize
  by_cases h1 : trimStr raw.payload.name = ""
  · simp [h1]
  · rw [if_neg h1]
    cases hl : typeTable.lookup raw.payload.rtype with
    | none => simp
    | some t =>
      by_cases h2 : checkUrl raw.payload.website = false
      · simp [h2]
      · by_cases h3 : checkCoords raw.payload.coords = false
        · simp [h2, h3]
        · simp [h2, h3]

/-- Batch normalization never aborts: every input record lands either in
the accepted list or in the rejected list. -/
theorem normalizeBatch_length (rs : List RawRecord) :
    (normalizeBatch rs).1.length + (normalizeBatch rs).2.length = rs.length := by
  induction rs with
  | nil => rfl
  | cons r t ih =>
    unfold normalizeBatch at ih ⊢
    rw [List.foldr_cons]
    cases normalize r with
    | ok n => simp only [List.length_cons]; omega
    | error why => simp only [List.length_cons]; omega

/-- C6 counterexample: a record with a non-empty name and a mapped type is
still rejected (reason `MalformedURL`), so "rejects exactly the records
with an empty trimmed name or an unmapped type" fails. -/
theorem normalize_exactly_cex :
    normalize rawBadUrl = .error .MalformedURL ∧
    trimStr rawBadUrl.payload.name ≠ "" ∧
    typeTable.lookup rawBadUrl.payload.rtype = some .startup := by
  refine ⟨?_, by decide, by decide⟩
  rw [normalize_malformed_url]
  refine ⟨by decide, by decide, by decide⟩

/-- C6 (amended): `normalize` returns a NormalizedRecord or one of the
four enumerated reasons; it rejects as `MissingName` exactly the records
whose trimmed payload name is empty and as `UnknownType` exactly those
whose type is unmapped, and it additionally rejects records whose present
website or coordinates are malformed (`MalformedURL` /
`MalformedCoordinate`); a rejection drops only that record and never
aborts the batch. -/
theorem normalize_amended :
    (∀ raw : RawRecord,
      (∃ n, normalize raw = .ok n) ∨
      normalize raw = .error .MissingName ∨ normalize raw = .error .UnknownType ∨
      normalize raw = .error .MalformedURL ∨ normalize raw = .error .MalformedCoordinate) ∧
    (∀ raw : RawRecord,
      normalize raw = .error .MissingName ↔ trimStr raw.payload.name = "") ∧
    (∀ raw : RawRecord,
      normalize raw = .error .UnknownType ↔
        trimStr raw.payload.name ≠ "" ∧ typeTable.lookup raw.payload.rtype = none) ∧
    (∀ raw : RawRecord,
      normalize raw = .error .MalformedURL ↔
        trimStr raw.payload.name ≠ "" ∧ (typeTable.lookup raw.payload.rtype).isSome ∧
        checkUrl raw.payload.website = false) ∧
    (∀ raw : RawRecord,
      normalize raw = .error .MalformedCoordinate ↔
        trimStr raw.payload.name ≠ "" ∧ (typeTable.lookup raw.payload.rtype).isSome ∧
        checkUrl raw.payload.website = true ∧ checkCoords raw.payload.coords = false) ∧
    (∀ rs : List RawRecord,
      (normalizeBatch rs).1.length + (normalizeBatch rs).2.length = rs.length) :=
  ⟨normalize_total, normalize_missing_name, normalize_unknown_type,
   normalize_malformed_url, normalize_malformed_coordinate, normalizeBatch_length⟩

/-- The confidence order is irreflexive. -/
theorem better_self (a : NormalizedRecord) : better a a = false := by
  unfold better
  rw [decide_eq_false_iff_not]
  unfold Dominates
  omega

/-- The confidence order is asymmetric. -/
theorem better_asymm (a b : NormalizedRecord) (h : better a b = true) :
    better b a = false := by
  unfold better at h ⊢
  rw [decide_eq_true_eq] at h
  rw [decide_eq_false_iff_not]
  unfold Dominates at h ⊢
  omega

/-- The claim's priority rule implies the implementation's total
confidence order. -/
theorem priorityDom_better (a b : NormalizedRecord) (h : PriorityDom a b) :
    better a b = true := by
  unfold better
  rw [decide_eq_true_eq]
  unfold PriorityDom at h
  unfold Dominates
  omega

/-- Once the dominant supplier is the candidate, it stays the candidate. -/
theorem foldl_pickStep_keep {α : Type} (get : NormalizedRecord → Option α)
    (r1 : NormalizedRecord) (t : List NormalizedRecord)
    (h : ∀ x ∈ t, x = r1 ∨ better r1 x = true) :
    t.foldl (pickStep get) (some r1) = some r1 := by
  induction t with
  | nil => rfl
  | cons x ts ih =>
    have hx := h x (List.mem_cons_self x ts)
    have hstep : pickStep get (some r1) x = some r1 := by
      unfold pickStep
      rcases hx with rfl | hb
      · by_cases hg : (get x).isSome <;> simp [hg, better_self]
      · by_cases hg : (get x).isSome <;> simp [hg, better_asymm _ _ hb]
    rw [List.foldl_cons, hstep]
    exact ih fun y hy => h y (List.mem_cons_of_mem _ hy)

/-- Best-supplier selection over dominated records preserves the
invariant. -/
theorem foldl_pickStep_inv {α : Type} (get : NormalizedRecord → Option α)
    (r1 : NormalizedRecord) (l : List NormalizedRecord)
    (h : ∀ x ∈ l, x = r1 ∨ better r1 x = true) :
    ∀ acc, PickInv r1 acc → PickInv r1 (l.foldl (pickStep get) acc) := by
  induction l with
  | nil => intro acc hacc; exact hacc
  | cons x ts ih =>
    intro acc hacc
    rw [List.foldl_cons]
    refine ih (fun y hy => h y (List.mem_cons_of_mem _ hy)) _ ?_
    have hx := h x (List.mem_cons_self x ts)
    unfold pickStep
    by_cases hg : (get x).isSome
    · rcases hacc with rfl | rfl | ⟨b, rfl, hb⟩
      · rcases hx with rfl | hb
        · exact Or.inr (Or.inl (by simp [hg]))
        · exact Or.inr (Or.inr ⟨x, by simp [hg], hb⟩)
      · rcases hx with rfl | hb
        · exact Or.inr (Or.inl (by simp [hg, better_self]))
        · exact Or.inr (Or.inl (by simp [hg, better_asymm _ _ hb]))
      · rcases hx with rfl | hbx
        · exact Or.inr (Or.inl (by simp [hg, hb]))
        · by_cases hxb : better x b = true
          · exact Or.inr (Or.inr ⟨x, by simp [hg, hxb], hbx⟩)
          · exact Or.inr (Or.inr ⟨b, by simp [hg, hxb], hb⟩)
    · simpa [hg] using hacc

/-- When one record of the list dominates every other record, pick-best
returns exactly that record (whatever the list order). -/
theorem pickBest_dominant {α : Type} (get : NormalizedRecord → Option α)
    (l : List NormalizedRecord) (r1 : NormalizedRecord)
    (h1 : r1 ∈ l) (hg : (get r1).isSome = true)
    (hdom : ∀ x ∈ l, x = r1 ∨ better r1 x = true) :
    pickBest get l = some r1 := by
  obtain ⟨l₁, l₂, rfl⟩ := List.append_of_mem h1
  unfold pickBest
  rw [List.foldl_append, List.foldl_cons]
  have hinv : PickInv r1 (l₁.foldl (pickStep get) none) :=
    foldl_pickStep_inv get r1 l₁
      (fun x hx => hdom x (List.mem_append_left _ hx)) none (Or.inl rfl)
  have hstep : pickStep get (l₁.foldl (pickStep get) none) r1 = some r1 := by
    rcases hinv with he | he | ⟨b, he, hb⟩
    · rw [he]; unfold pickStep; simp [hg]
    · rw [he]; unfold pickStep; simp [hg, better_self]
    · rw [he]; unfold pickStep; simp [hg, hb]
  rw [hstep]
  exact foldl_pickStep_keep get r1 l₂ fun x hx =>
    hdom x (List.mem_append_right _ (List.mem_cons_of_mem _ hx))

/-- C3: in a resolved cluster containing records with conflicting `name`
values, when one record's source strictly dominates every other record
(higher priority, or equal priority and more recent `fetched_at`), the
merged `name` is that record's value — in whatever order the cluster is
processed. -/
theorem merge_scalar_priority (l l' : List NormalizedRecord)
    (r1 r2 : NormalizedRecord) (hperm : l'.Perm l)
    (h1 : r1 ∈ l) (_h2 : r2 ∈ l) (_hconf : r2.name ≠ r1.name)
    (hdom : ∀ r ∈ l, r ≠ r1 → PriorityDom r1 r) :
    (mergedFields l').name = some r1.name := by
  have hdom' : ∀ x ∈ l', x = r1 ∨ better r1 x = true := by
    intro x hx
    by_cases hxe : x = r1
    · exact Or.inl hxe
    · exact Or.inr (priorityDom_better _ _ (hdom x (hperm.subset hx) hxe))
  have h1' : r1 ∈ l' := hperm.mem_iff.mpr h1
  show fieldVal (fun r => some r.name) l' = some r1.name
  unfold fieldVal
  rw [pickBest_dominant (fun r => some r.name) l' r1 h1' (by simp) hdom']
  rfl

/-- C3 witness: the government record `recB` beats the web-crawl record
`recA`, so the merged name is `"ACME"` in both processing orders. -/
theorem merge_scalar_priority_witness :
    recA.source_type.priority < recB.source_type.priority ∧
    recA.name ≠ recB.name ∧
    (mergedFields [recB, recA]).name = some "ACME" ∧
    (mergedFields [recA, recB]).name = some "ACME" := by
  refine ⟨by decide, by decide, ?_, ?_⟩
  · exact merge_scalar_priority [recA, recB] [recB, recA] recB recA
      (by decide) (by decide) (by decide) (by decide) (by decide)
  · exact merge_scalar_priority [recA, recB] [recA, recB] recB recA
      (by decide) (by decide) (by decide) (by decide) (by decide)

/-- What latest-fetch selection returns came from the list and has the
requested source id (unless it is the unchanged accumulator). -/
theorem bestFor_aux_mem (sid : Nat) :
    ∀ (l : List NormalizedRecord) (acc : Option NormalizedRecord)
      (r : NormalizedRecord),
      l.foldl (bestStep sid) acc = some r →
      acc = some r ∨ (r ∈ l ∧ r.source_id = sid) := by
  intro l
  induction l with
  | nil => intro acc r h; exact Or.inl h
  | cons x t ih =>
    intro acc r h
    rw [List.foldl_cons] at h
    rcases ih _ r h with hs | ⟨hm, hsid⟩
    · by_cases hx : x.source_id = sid
      · cases acc with
        | none =>
          simp only [bestStep, if_pos hx, Option.some_inj] at hs
          exact Or.inr ⟨by rw [← hs]; exact List.mem_cons_self x t, hs ▸ hx⟩
        | some b =>
          simp only [bestStep, if_pos hx, Option.some_inj] at hs
          unfold latest at hs
          by_cases hf : b.fetched_at < x.fetched_at
          · rw [if_pos hf] at hs
            exact Or.inr ⟨by rw [← hs]; exact List.mem_cons_self x t, hs ▸ hx⟩
          · rw [if_neg hf] at hs
            exact Or.inl (by rw [hs])
      · simp only [bestStep, if_neg hx] at hs
        exact Or.inl hs
    · exact Or.inr ⟨List.mem_cons_of_mem _ hm, hsid⟩

/-- Membership form: the survivor of a source id is a record of the batch
with that id. -/
theorem bestFor_mem (l : List NormalizedRecord) (sid : Nat)
    (r : NormalizedRecord) (h : bestFor l sid = some r) :
    r ∈ l ∧ r.source_id = sid := by
  rcases bestFor_aux_mem sid l none r h with hc | hc
  · exact absurd hc (by simp)
  · exact hc

/-- When every record of a list carrying the id equals `x`, the fold keeps
`some x` once reached. -/
theorem bestFor_keep (sid : Nat) (x : NormalizedRecord) :
    ∀ c : List NormalizedRecord,
      (∀ y ∈ c, y.source_id = sid → y = x) →
      c.foldl (bestStep sid) (some x) = some x := by
  intro c
  induction c with
  | nil => intro _; rfl
  | cons y t ih =>
    intro h
    rw [List.foldl_cons]
    have hstep : bestStep sid (some x) y = some x := by
      by_cases hy : y.source_id = sid
      · have hyx : y = x := h y (List.mem_cons_self y t) hy
        subst hyx
        simp [bestStep, hy, latest]
      · simp [bestStep, hy]
    rw [hstep]
    exact ih fun z hz => h z (List.mem_cons_of_mem _ hz)

/-- When `x` is the unique record of its source id in a list, latest-fetch
selection returns exactly `x`. -/
theorem bestFor_unique (sid : Nat) (x : NormalizedRecord) (hsid : x.source_id = sid) :
    ∀ c : List NormalizedRecord, x ∈ c →
      (∀ y ∈ c, y.source_id = sid → y = x) →
      bestFor c sid = some x := by
  intro c
  induction c with
  | nil => intro hx; exact absurd hx (List.not_mem_nil x)
  | cons y t ih =>
    intro hx h
    unfold bestFor
    rw [List.foldl_cons]
    by_cases hy : y.source_id = sid
    · have hyx : y = x := h y (List.mem_cons_self y t) hy
      subst hyx
      have : bestStep sid none y = some y := by simp [bestStep, hy]
      rw [this]
      exact bestFor_keep sid y t fun z hz hzs => h z (List.mem_cons_of_mem _ hz) hzs
    · have hxt : x ∈ t := by
        rcases List.mem_cons.mp hx with rfl | hm
        · exact absurd hsid hy
        · exact hm
      have : bestStep sid none y = none := by simp [bestStep, hy]
      rw [this]
      exact ih hxt fun z hz hzs => h z (List.mem_cons_of_mem _ hz) hzs

/-- The later-of-two choice is symmetric when same-time records are
equal. -/
theorem latest_swap (x y : NormalizedRecord)
    (hxy : x.fetched_at = y.fetched_at → x = y) : latest x y = latest y x := by
  unfold latest
  by_cases h1 : x.fetched_at < y.fetched_at <;>
    by_cases h2 : y.fetched_at < x.fetched_at <;>
    simp only [h1, h2, if_true, if_false] <;>
    first
      | rfl
      | omega
      | exact hxy (by omega)
      | exact (hxy (by omega)).symm

/-- The later-of-two choice commutes in its second argument when same-time
records are equal. -/
theorem latest_comm (b x y : NormalizedRecord)
    (hxy : x.fetched_at = y.fetched_at → x = y) :
    latest (latest b x) y = latest (latest b y) x := by
  unfold latest
  by_cases hbx : b.fetched_at < x.fetched_at <;>
    by_cases hby : b.fetched_at < y.fetched_at <;>
    by_cases h1 : x.fetched_at < y.fetched_at <;>
    by_cases h2 : y.fetched_at < x.fetched_at <;>
    simp only [hbx, hby, h1, h2, if_true, if_false] <;>
    first
      | rfl
      | omega
      | exact hxy (by omega)
      | exact (hxy (by omega)).symm
      | (rw [if_neg (by omega)])
      | (rw [if_pos (by omega)])

/-- Latest-fetch steps for one source id commute on records of a batch
with no two distinct same-source same-time records. -/
theorem bestStep_comm (sid : Nat) (l : List NormalizedRecord) (hgb : goodBatch l) :
    ∀ x ∈ l, ∀ y ∈ l, ∀ z, bestStep sid (bestStep sid z x) y =
      bestStep sid (bestStep sid z y) x := by
  intro x hx y hy z
  by_cases hxs : x.source_id = sid
  · by_cases hys : y.source_id = sid
    · have hxy : x.fetched_at = y.fetched_at → x = y :=
        fun hf => hgb x hx y hy (by rw [hxs, hys]) hf
      cases z with
      | none =>
        simp only [bestStep, if_pos hxs, if_pos hys]
        exact congrArg some (latest_swap x y hxy)
      | some b =>
        simp only [bestStep, if_pos hxs, if_pos hys]
        exact congrArg some (latest_comm b x y hxy)
    · simp only [bestStep, if_pos hxs, if_neg hys]
  · by_cases hys : y.source_id = sid
    · simp only [bestStep, if_neg hxs, if_pos hys]
    · simp only [bestStep, if_neg hxs, if_neg hys]

/-- Latest-fetch selection only depends on the batch as a multiset. -/
theorem bestFor_perm (l₁ l₂ : List NormalizedRecord) (h : l₁.Perm l₂)
    (hgb : goodBatch l₁) (sid : Nat) : bestFor l₁ sid = bestFor l₂ sid :=
  h.foldl_eq' (bestStep_comm sid l₁ hgb) none

/-- `supersede` is a canonical form: any two permutations of a good batch
supersede to the same list. -/
theorem supersede_perm (l₁ l₂ : List NormalizedRecord) (h : l₁.Perm l₂)
    (hgb : goodBatch l₂) : supersede l₁ = supersede l₂ := by
  have hgb₁ : goodBatch l₁ := fun a ha b hb => hgb a (h.subset ha) b (h.subset hb)
  have hids : (sourceIds l₁).Perm (sourceIds l₂) := (h.map _).dedup
  have hsort : List.insertionSort (· ≤ ·) (sourceIds l₁) =
      List.insertionSort (· ≤ ·) (sourceIds l₂) := by
    refine List.eq_of_perm_of_sorted ?_ (List.sorted_insertionSort _ _)
      (List.sorted_insertionSort _ _)
    exact (List.perm_insertionSort _ _).trans (hids.trans (List.perm_insertionSort _ _).symm)
  unfold supersede
  rw [hsort]
  exact List.filterMap_congr fun sid _ => bestFor_perm l₁ l₂ h hgb₁ sid

/-- The sorted distinct source ids are strictly ascending. -/
theorem sortedIds_pairwise (l : List NormalizedRecord) :
    List.Pairwise (· < ·) (List.insertionSort (· ≤ ·) (sourceIds l)) := by
  have hs : List.Sorted (· ≤ ·) (List.insertionSort (· ≤ ·) (sourceIds l)) :=
    List.sorted_insertionSort _ _
  have hnd : (List.insertionSort (· ≤ ·) (sourceIds l)).Nodup :=
    (List.perm_insertionSort _ _).nodup_iff.mpr (List.nodup_dedup _)
  exact (hs.and hnd).imp fun hab => lt_of_le_of_ne hab.1 hab.2

/-- The superseded batch has strictly ascending source ids. -/
theorem supersede_canon (l : List NormalizedRecord) : Canon (supersede l) := by
  unfold Canon supersede
  rw [List.pairwise_filterMap]
  refine (sortedIds_pairwise l).imp ?_
  intro a b hab x hx y hy
  rw [(bestFor_mem l a x hx).2, (bestFor_mem l b y hy).2]
  exact hab

/-- Records of the superseded batch come from the batch. -/
theorem supersede_subset (l : List NormalizedRecord) (r : NormalizedRecord)
    (h : r ∈ supersede l) : r ∈ l := by
  unfold supersede at h
  rcases List.mem_filterMap.mp h with ⟨sid, _, hb⟩
  exact (bestFor_mem l sid r hb).1

/-- A record that is the only one of its source in the batch survives
supersede. -/
theorem mem_supersede_unique (l : List NormalizedRecord) (x : NormalizedRecord)
    (hx : x ∈ l) (huniq : ∀ y ∈ l, y.source_id = x.source_id → y = x) :
    x ∈ supersede l := by
  unfold supersede
  refine List.mem_filterMap.mpr ⟨x.source_id, ?_, ?_⟩
  · rw [(List.perm_insertionSort (· ≤ ·) (sourceIds l)).mem_iff]
    exact List.mem_dedup.mpr (List.mem_map_of_mem _ hx)
  · exact bestFor_unique x.source_id x rfl l hx huniq

/-- On a list with strictly ascending ids, distinct records have distinct
ids. -/
theorem canon_sid_inj (c : List NormalizedRecord) (h : Canon c) :
    ∀ x ∈ c, ∀ y ∈ c, x.source_id = y.source_id → x = y := by
  unfold Canon at h
  induction c with
  | nil => intro x hx; exact absurd hx (List.not_mem_nil x)
  | cons a t ih =>
    rw [List.pairwise_cons] at h
    obtain ⟨hhead, htail⟩ := h
    intro x hx y hy hxy
    rcases List.mem_cons.mp hx with rfl | hx'
    · rcases List.mem_cons.mp hy with rfl | hy'
      · rfl
      · exact absurd hxy (by have := hhead y hy'; omega)
    · rcases List.mem_cons.mp hy with rfl | hy'
      · exact absurd hxy (by have := hhead x hx'; omega)
      · exact ih htail x hx' y hy' hxy

/-- Appending a list to a superset changes nothing up to `dedup`. -/
theorem dedup_append_of_subset {α : Type} [DecidableEq α] (l l' : List α)
    (h : l ⊆ l') : (l ++ l').dedup = l'.dedup := by
  induction l with
  | nil => rfl
  | cons a t ih =>
    have ha : a ∈ t ++ l' := List.mem_append_right t (h (List.mem_cons_self a t))
    rw [List.cons_append, List.dedup_cons_of_mem ha]
    exact ih fun x hx => h (List.mem_cons_of_mem a hx)

/-- The ids of a canonical list are strictly ascending. -/
theorem canon_ids_pairwise (c : List NormalizedRecord) (h : Canon c) :
    List.Pairwise (· < ·) (c.map fun r => r.source_id) :=
  List.pairwise_map.mpr h

/-- The ids of a canonical list have no duplicates. -/
theorem canon_ids_nodup (c : List NormalizedRecord) (h : Canon c) :
    (c.map fun r => r.source_id).Nodup :=
  (canon_ids_pairwise c h).imp ne_of_lt

/-- The ids of a canonical list are sorted. -/
theorem canon_ids_sorted (c : List NormalizedRecord) (h : Canon c) :
    List.Sorted (· ≤ ·) (c.map fun r => r.source_id) :=
  (canon_ids_pairwise c h).imp le_of_lt

/-- Replaying the ids of a list whose records are each the unique carrier
of their id in `d` reconstructs the list. -/
theorem filterMap_bestFor (d : List NormalizedRecord) :
    ∀ c : List NormalizedRecord,
      (∀ x ∈ c, x ∈ d ∧ ∀ y ∈ d, y.source_id = x.source_id → y = x) →
      (c.map fun r => r.source_id).filterMap (bestFor d) = c := by
  intro c
  induction c with
  | nil => intro _; rfl
  | cons x t ih =>
    intro h
    obtain ⟨hxd, huniq⟩ := h x (List.mem_cons_self x t)
    have hb : bestFor d x.source_id = some x :=
      bestFor_unique x.source_id x rfl d hxd huniq
    rw [List.map_cons, List.filterMap_cons, hb]
    exact congrArg (x :: ·) (ih fun z hz => h z (List.mem_cons_of_mem _ hz))

/-- A canonical list is a fixed point of `supersede`. -/
theorem supersede_canon_fix (c : List NormalizedRecord) (h : Canon c) :
    supersede c = c := by
  unfold supersede sourceIds
  rw [List.dedup_eq_self.mpr (canon_ids_nodup c h),
    (canon_ids_sorted c h).insertionSort_eq]
  exact filterMap_bestFor c c fun x hx =>
    ⟨hx, fun y hy hsy => canon_sid_inj c h y hy x hx hsy⟩

/-- Re-delivering a canonical cluster on top of itself is absorbed. -/
theorem supersede_dup (c : List NormalizedRecord) (h : Canon c) :
    supersede (c ++ c) = c := by
  unfold supersede sourceIds
  rw [List.map_append, dedup_append_of_subset _ _ (List.Subset.refl _),
    List.dedup_eq_self.mpr (canon_ids_nodup c h),
    (canon_ids_sorted c h).insertionSort_eq]
  exact filterMap_bestFor (c ++ c) c fun x hx =>
    ⟨List.mem_append_left _ hx, fun y hy hsy => by
      rcases List.mem_append.mp hy with hy' | hy' <;>
        exact canon_sid_inj c h y hy' x hx hsy⟩

/-- The within-block match rule collapses to blocking-key equality: inside
a website block the websites already match exactly, and inside a name
block the normalized names already match exactly.  The union-find
transitive closure of `matchRec` therefore partitions a batch exactly
into its blocks, which is how `clustersOf` computes it. -/
theorem matchRec_iff_blockKey (r1 r2 : NormalizedRecord) :
    matchRec r1 r2 = (blockKey r1 == blockKey r2) := by
  unfold matchRec
  cases hb : blockKey r1 == blockKey r2 with
  | false => simp
  | true =>
    rw [Bool.true_and]
    have h := beq_iff_eq.mp hb
    unfold blockKey at h
    cases hw1 : r1.website with
    | some w1 =>
      cases hw2 : r2.website with
      | some w2 =>
        rw [hw1, hw2] at h
        have hwk : websiteKey w1 = websiteKey w2 := by
          have := congrArg Prod.snd h
          simpa using this
        simp [hwk]
      | none =>
        rw [hw1, hw2] at h
        have := congrArg Prod.fst h
        simp at this
    | none =>
      cases hw2 : r2.website with
      | some w2 =>
        rw [hw1, hw2] at h
        have := congrArg Prod.fst h
        simp at this
      | none =>
        rw [hw1, hw2] at h
        have hnk : nameKey r1.name = nameKey r2.name := by
          have := congrArg Prod.snd h
          simpa using this
        simp [hnk]

/-- Members of a block share its key and come from the batch. -/
theorem mem_block (s : List NormalizedRecord) (k : Bool × List Char)
    (r : NormalizedRecord) (h : r ∈ s.filter fun x => blockKey x == k) :
    r ∈ s ∧ blockKey r = k := by
  rw [List.mem_filter] at h
  exact ⟨h.1, by simpa using h.2⟩

/-- Every cluster of a batch is nonempty. -/
theorem clustersOf_nonempty (s : List NormalizedRecord)
    (C : List NormalizedRecord) (h : C ∈ clustersOf s) : C ≠ [] := by
  unfold clustersOf at h
  rcases List.mem_map.mp h with ⟨k, hk, rfl⟩
  unfold blockKeys at hk
  rcases List.mem_map.mp (List.mem_dedup.mp hk) with ⟨r, hr, rfl⟩
  intro hnil
  have : r ∈ s.filter fun x => blockKey x == blockKey r :=
    List.mem_filter.mpr ⟨hr, by simp⟩
  rw [hnil] at this
  exact List.not_mem_nil r this

/-- Every cluster of a batch is key-homogeneous. -/
theorem clustersOf_homog (s : List NormalizedRecord)
    (C : List NormalizedRecord) (h : C ∈ clustersOf s) :
    ∃ k, ∀ r ∈ C, r ∈ s ∧ blockKey r = k := by
  unfold clustersOf at h
  rcases List.mem_map.mp h with ⟨k, _, rfl⟩
  exact ⟨k, fun r hr => mem_block s k r hr⟩

/-- Clusters of a canonical batch are canonical. -/
theorem clustersOf_canon (s : List NormalizedRecord) (hs : Canon s) :
    ∀ C ∈ clustersOf s, Canon C := by
  intro C h
  unfold clustersOf at h
  rcases List.mem_map.mp h with ⟨k, _, rfl⟩
  exact List.Pairwise.sublist (List.filter_sublist s) hs

/-- Distinct clusters of a canonical batch share no source id and no
blocking key. -/
theorem clustersOf_pairwise (s : List NormalizedRecord) (hs : Canon s) :
    List.Pairwise DisjCl (clustersOf s) := by
  unfold clustersOf
  rw [List.pairwise_map]
  have hnd : (blockKeys s).Nodup := List.nodup_dedup _
  refine (hnd.imp ?_ : List.Pairwise _ (blockKeys s))
  intro k k' hkk a ha b hb
  obtain ⟨has, hak⟩ := mem_block s k a ha
  obtain ⟨hbs, hbk⟩ := mem_block s k' b hb
  constructor
  · intro hsid
    have : a = b := canon_sid_inj s hs a has b hbs hsid
    exact hkk (by rw [← hak, this, hbk])
  · rw [hak, hbk]; exact hkk

/-- A surviving record lands in the cluster of its own blocking key. -/
theorem mem_own_cluster (s : List NormalizedRecord) (r : NormalizedRecord)
    (h : r ∈ s) :
    (s.filter fun x => blockKey x == blockKey r) ∈ clustersOf s ∧
      r ∈ s.filter fun x => blockKey x == blockKey r := by
  constructor
  · unfold clustersOf
    refine List.mem_map_of_mem _ ?_
    unfold blockKeys
    exact List.mem_dedup.mpr (List.mem_map_of_mem _ h)
  · exact List.mem_filter.mpr ⟨h, by simp⟩

/-- A cluster matching no entity of the list is matched by none. -/
theorem updFirst_none (now : Nat) (C : List NormalizedRecord) :
    ∀ es : List Entity, (∀ e ∈ es, considerEntity C e = false) →
      updFirst now C es = none := by
  intro es
  induction es with
  | nil => intro _; rfl
  | cons e t ih =>
    intro h
    unfold updFirst
    rw [h e (List.mem_cons_self e t),
      ih fun x hx => h x (List.mem_cons_of_mem _ hx)]
    rfl

/-- The first matching entity after a non-matching prefix is the one
updated. -/
theorem updFirst_append (now : Nat) (C : List NormalizedRecord) :
    ∀ es₁ : List Entity, (∀ x ∈ es₁, considerEntity C x = false) →
      ∀ (e : Entity), considerEntity C e = true → ∀ es₂ : List Entity,
        updFirst now C (es₁ ++ e :: es₂) =
          some (es₁ ++ updateEntity now C e :: es₂) := by
  intro es₁
  induction es₁ with
  | nil =>
    intro _ e he es₂
    rw [List.nil_append]
    simp [updFirst, he]
  | cons x t ih =>
    intro h e he es₂
    have hx : considerEntity C x = false := h x (List.mem_cons_self x t)
    have ht := ih (fun y hy => h y (List.mem_cons_of_mem _ hy)) e he es₂
    rw [List.cons_append]
    simp [updFirst, hx, ht]

/-- An entity whose provenance is a cluster disjoint from `C'` is not
matched by `C'`. -/
theorem entityMatches_false (C C' : List NormalizedRecord)
    (hd : DisjCl C C') (e : Entity) (hrecs : e.recs = C) :
    entityMatches C' e = false := by
  unfold entityMatches
  rw [hrecs]
  simp only [Bool.or_eq_false_iff, List.any_eq_false, Bool.not_eq_true]
  constructor
  · intro a ha b hb
    exact beq_eq_false_iff_ne.mpr fun hba => (hd a ha b hb).1 hba.symm
  · intro a ha b hb
    exact beq_eq_false_iff_ne.mpr fun hba => (hd a ha b hb).2 hba.symm

/-- Hence such an entity is never considered for update by `C'`. -/
theorem consider_false (C C' : List NormalizedRecord)
    (hd : DisjCl C C') (e : Entity) (hrecs : e.recs = C) :
    considerEntity C' e = false := by
  unfold considerEntity
  rw [entityMatches_false C C' hd e hrecs, Bool.and_false]

/-- An active entity whose provenance is the nonempty cluster itself is
considered for update by that cluster. -/
theorem consider_self (C : List NormalizedRecord) (hne : C ≠ [])
    (e : Entity) (hrecs : e.recs = C) (hstatus : e.status = .active) :
    considerEntity C e = true := by
  unfold considerEntity entityMatches
  rw [hrecs, hstatus]
  cases C with
  | nil => exact absurd rfl hne
  | cons r t =>
    have h1 : ((r :: t).any fun er => (r :: t).any fun cr =>
        cr.source_id == er.source_id) = true := by
      rw [List.any_eq_true]
      exact ⟨r, List.mem_cons_self r t,
        List.any_eq_true.mpr ⟨r, List.mem_cons_self r t, by simp⟩⟩
    rw [h1]
    rfl

/-- Updating an active entity with its own canonical cluster only touches
the `updated_at` stamp. -/
theorem updateEntity_touch (now : Nat) (C : List NormalizedRecord) (e : Entity)
    (hrecs : e.recs = C) (hstatus : e.status = .active) (hc : Canon C) :
    updateEntity now C e = touchTime now e := by
  unfold updateEntity touchTime
  rw [hrecs, hstatus, supersede_dup C hc]
  simp [← hrecs]

/-- Folding clusters that match nothing in the store appends fresh
entities with consecutive ids. -/
theorem foldFresh (now : Nat) :
    ∀ (cls : List (List NormalizedRecord)) (S : Store),
      (∀ C ∈ cls, ∀ e ∈ S.entities, considerEntity C e = false) →
      List.Pairwise DisjCl cls →
      cls.foldl (applyCluster now) S =
        ⟨S.entities ++ freshEntities now S.nextId cls, S.nextId + cls.length⟩ := by
  intro cls
  induction cls with
  | nil =>
    intro S _ _
    simp [freshEntities]
  | cons C tl ih =>
    intro S h hp
    rw [List.pairwise_cons] at hp
    obtain ⟨hphead, hptail⟩ := hp
    rw [List.foldl_cons]
    have happ : applyCluster now S C =
        ⟨S.entities ++ [newEntity S.nextId now C], S.nextId + 1⟩ := by
      unfold applyCluster
      rw [updFirst_none now C S.entities fun e he => h C (List.mem_cons_self C tl) e he]
    rw [happ, ih ⟨S.entities ++ [newEntity S.nextId now C], S.nextId + 1⟩ ?_ hptail]
    · simp only [freshEntities, List.append_assoc, List.singleton_append,
        List.length_cons, Store.mk.injEq]
      exact ⟨trivial, by omega⟩
    · intro C' hC' e he
      rcases List.mem_append.mp he with he' | he'
      · exact h C' (List.mem_cons_of_mem _ hC') e he'
      · have : e = newEntity S.nextId now C := List.mem_singleton.mp he'
        exact consider_false C C' (hphead C' hC') e (by rw [this]; rfl)

/-- A run on the empty store creates one entity per cluster, ids minted
from 0. -/
theorem run_empty_store (now : Nat) (batch : List NormalizedRecord) :
    run now emptyStore batch =
      ⟨freshEntities now 0 (clustersOf (supersede batch)),
       (clustersOf (supersede batch)).length⟩ := by
  unfold run
  rw [foldFresh now _ emptyStore (fun C _ e he => absurd he (List.not_mem_nil e))
    (clustersOf_pairwise _ (supersede_canon batch))]
  simp [emptyStore]

/-- The fresh entities of a cluster list correspond one-to-one to the
clusters. -/
theorem freshEntities_corr (now : Nat) :
    ∀ cls : List (List NormalizedRecord),
      (∀ C ∈ cls, C ≠ []) → (∀ C ∈ cls, Canon C) → ∀ base : Nat,
      List.Forall₂
        (fun C e => e.recs = C ∧ e.status = .active ∧ C ≠ [] ∧ Canon C)
        cls (freshEntities now base cls) := by
  intro cls
  induction cls with
  | nil => intro _ _ _; exact List.Forall₂.nil
  | cons C tl ih =>
    intro hne hc base
    refine List.Forall₂.cons ⟨rfl, rfl, hne C (List.mem_cons_self C tl),
      hc C (List.mem_cons_self C tl)⟩ ?_
    exact ih (fun x hx => hne x (List.mem_cons_of_mem _ hx))
      (fun x hx => hc x (List.mem_cons_of_mem _ hx)) (base + 1)

/-- Re-folding the clusters of a store whose entities correspond to them
one-to-one only touches the `updated_at` stamps. -/
theorem foldUpd (t : Nat) :
    ∀ (cls : List (List NormalizedRecord)) (done es : List Entity) (n : Nat),
      List.Forall₂
        (fun C e => e.recs = C ∧ e.status = .active ∧ C ≠ [] ∧ Canon C)
        cls es →
      (∀ C ∈ cls, ∀ e ∈ done, considerEntity C e = false) →
      List.Pairwise DisjCl cls →
      cls.foldl (applyCluster t) ⟨done ++ es, n⟩ =
        ⟨done ++ es.map (touchTime t), n⟩ := by
  intro cls
  induction cls with
  | nil =>
    intro done es n hf _ _
    cases hf
    simp
  | cons C tl ih =>
    intro done es n hf h hp
    rw [List.pairwise_cons] at hp
    obtain ⟨hphead, hptail⟩ := hp
    cases hf with
    | cons hhead hftl =>
      rename_i e es'
      obtain ⟨hrecs, hstatus, hne, hcanon⟩ := hhead
      rw [List.foldl_cons]
      have happ : applyCluster t ⟨done ++ e :: es', n⟩ C =
          ⟨done ++ updateEntity t C e :: es', n⟩ := by
        unfold applyCluster
        rw [updFirst_append t C done (fun x hx => h C (List.mem_cons_self C tl) x hx)
          e (consider_self C hne e hrecs hstatus) es']
      rw [happ, updateEntity_touch t C e hrecs hstatus hcanon]
      have hsplit : done ++ touchTime t e :: es' = (done ++ [touchTime t e]) ++ es' := by
        simp
      rw [hsplit, ih (done ++ [touchTime t e]) es' n hftl ?_ hptail]
      · simp
      · intro C' hC' x hx
        rcases List.mem_append.mp hx with hx' | hx'
        · exact h C' (List.mem_cons_of_mem _ hC') x hx'
        · have hxe : x = touchTime t e := List.mem_singleton.mp hx'
          exact consider_false C C' (hphead C' hC') x (by rw [hxe, ← hrecs]; rfl)

/-- A re-run of (a permutation of) an already-resolved batch only touches
the `updated_at` stamps of the store. -/
theorem run_update (t : Nat) (S : Store) (rs rs' : List NormalizedRecord)
    (hperm : rs'.Perm rs) (hgb : goodBatch rs)
    (hcorr : List.Forall₂
      (fun C e => e.recs = C ∧ e.status = .active ∧ C ≠ [] ∧ Canon C)
      (clustersOf (supersede rs)) S.entities) :
    run t S rs' = ⟨S.entities.map (touchTime t), S.nextId⟩ := by
  unfold run
  rw [supersede_perm rs' rs hperm hgb]
  have h := foldUpd t (clustersOf (supersede rs)) [] S.entities S.nextId hcorr
    (fun C _ e he => absurd he (List.not_mem_nil e))
    (clustersOf_pairwise _ (supersede_canon rs))
  simpa using h

/-- Touching timestamps preserves the cluster-entity correspondence. -/
theorem corr_touch (t : Nat) :
    ∀ (cls : List (List NormalizedRecord)) (es : List Entity),
      List.Forall₂
        (fun C e => e.recs = C ∧ e.status = .active ∧ C ≠ [] ∧ Canon C)
        cls es →
      List.Forall₂
        (fun C e => e.recs = C ∧ e.status = .active ∧ C ≠ [] ∧ Canon C)
        cls (es.map (touchTime t)) := by
  intro cls es h
  induction h with
  | nil => exact List.Forall₂.nil
  | cons hh _ht ih => exact List.Forall₂.cons hh ih

/-- Touching timestamps is invisible to the view modulo `updated_at`. -/
theorem storeView_touch (t : Nat) (es : List Entity) (n : Nat) :
    storeView ⟨es.map (touchTime t), n⟩ = storeView ⟨es, n⟩ := by
  unfold storeView
  rw [List.map_map]
  rfl

/-- Every cluster has a fresh entity carrying exactly it. -/
theorem freshEntities_exists (now : Nat) :
    ∀ (cls : List (List NormalizedRecord)) (C : List NormalizedRecord),
      C ∈ cls → ∀ base : Nat,
      ∃ e ∈ freshEntities now base cls, e.recs = C := by
  intro cls
  induction cls with
  | nil => intro C hC _; exact absurd hC (List.not_mem_nil C)
  | cons C0 tl ih =>
    intro C hC base
    rcases List.mem_cons.mp hC with rfl | hC'
    · exact ⟨newEntity base now C, List.mem_cons_self _ _, rfl⟩
    · obtain ⟨e, he, hr⟩ := ih C hC' (base + 1)
      exact ⟨e, List.mem_cons_of_mem _ he, hr⟩

/-- C1: resolving a RawRecord set, then re-running the Resolver any number
of further times over any permutations of the same set, yields the same
canonical entities — same ids, same provenance, same derived field values
— differing only in `updated_at`; and a single run is itself independent
of the record order. -/
theorem resolver_idempotent (rs : List NormalizedRecord) (hgb : goodBatch rs)
    (t0 : Nat) (batches : List (List NormalizedRecord × Nat))
    (hperm : ∀ p ∈ batches, p.1.Perm rs) :
    (∀ rs', rs'.Perm rs → run t0 emptyStore rs' = run t0 emptyStore rs) ∧
    storeView (runMany (run t0 emptyStore rs) batches) =
      storeView (run t0 emptyStore rs) := by
  constructor
  · intro rs' h
    unfold run
    rw [supersede_perm rs' rs h hgb]
  · have hcorr0 : List.Forall₂
        (fun C e => e.recs = C ∧ e.status = .active ∧ C ≠ [] ∧ Canon C)
        (clustersOf (supersede rs)) (run t0 emptyStore rs).entities := by
      rw [run_empty_store]
      exact freshEntities_corr t0 _ (fun C hC => clustersOf_nonempty _ C hC)
        (clustersOf_canon _ (supersede_canon rs)) 0
    suffices haux : ∀ (bs : List (List NormalizedRecord × Nat)) (T : Store),
        (∀ p ∈ bs, p.1.Perm rs) →
        List.Forall₂
          (fun C e => e.recs = C ∧ e.status = .active ∧ C ≠ [] ∧ Canon C)
          (clustersOf (supersede rs)) T.entities →
        storeView (runMany T bs) = storeView T by
      exact haux batches _ hperm hcorr0
    intro bs
    induction bs with
    | nil => intro T _ _; rfl
    | cons p tl ih =>
      intro T hp hcorr
      unfold runMany
      rw [List.foldl_cons]
      have hrun : run p.2 T p.1 = ⟨T.entities.map (touchTime p.2), T.nextId⟩ :=
        run_update p.2 T rs p.1 (hp p (List.mem_cons_self p tl)) hgb hcorr
      rw [hrun]
      have h1 : storeView (runMany ⟨T.entities.map (touchTime p.2), T.nextId⟩ tl) =
          storeView ⟨T.entities.map (touchTime p.2), T.nextId⟩ :=
        ih ⟨T.entities.map (touchTime p.2), T.nextId⟩
          (fun q hq => hp q (List.mem_cons_of_mem _ hq))
          (corr_touch p.2 _ _ hcorr)
      calc storeView (runMany ⟨T.entities.map (touchTime p.2), T.nextId⟩ tl)
          = storeView ⟨T.entities.map (touchTime p.2), T.nextId⟩ := h1
        _ = storeView ⟨T.entities, T.nextId⟩ := storeView_touch p.2 T.entities T.nextId
        _ = storeView T := rfl

/-- C1 witness: a two-record batch, re-run once in reversed order. -/
theorem resolver_idempotent_witness :
    goodBatch [recA, recB] ∧
    (∀ p ∈ [([recB, recA], 5)], p.1.Perm [recA, recB]) ∧
    storeView (runMany (run 0 emptyStore [recA, recB]) [([recB, recA], 5)]) =
      storeView (run 0 emptyStore [recA, recB]) := by
  refine ⟨by decide, by decide, ?_⟩
  exact (resolver_idempotent [recA, recB] (by decide) 0 [([recB, recA], 5)]
    (by decide)).2

/-- C5: two surviving records with identical normalized websites always
land in one and the same canonical entity, whatever their names. -/
theorem blocking_website_merge (rs : List NormalizedRecord) (t0 : Nat)
    (r1 r2 : NormalizedRecord)
    (h1 : r1 ∈ rs) (h2 : r2 ∈ rs)
    (hu1 : ∀ y ∈ rs, y.source_id = r1.source_id → y = r1)
    (hu2 : ∀ y ∈ rs, y.source_id = r2.source_id → y = r2)
    (w1 w2 : String) (hw1 : r1.website = some w1) (hw2 : r2.website = some w2)
    (hkey : websiteKey w1 = websiteKey w2) :
    ∃ e ∈ (run t0 emptyStore rs).entities, r1 ∈ e.recs ∧ r2 ∈ e.recs := by
  have hs1 : r1 ∈ supersede rs := mem_supersede_unique rs r1 h1 hu1
  have hs2 : r2 ∈ supersede rs := mem_supersede_unique rs r2 h2 hu2
  have hb1 : blockKey r1 = (true, websiteKey w1) := by unfold blockKey; rw [hw1]
  have hb2 : blockKey r2 = (true, websiteKey w2) := by unfold blockKey; rw [hw2]
  have hbk : blockKey r2 = blockKey r1 := by rw [hb1, hb2, hkey]
  obtain ⟨hCmem, hr1C⟩ := mem_own_cluster (supersede rs) r1 hs1
  have hr2C : r2 ∈ (supersede rs).filter fun x => blockKey x == blockKey r1 :=
    List.mem_filter.mpr ⟨hs2, by rw [hbk]; simp⟩
  rw [run_empty_store]
  obtain ⟨e, he, hr⟩ := freshEntities_exists t0 (clustersOf (supersede rs)) _ hCmem 0
  exact ⟨e, he, by rw [hr]; exact hr1C, by rw [hr]; exact hr2C⟩

/-- C5 witness: `recA` and `recB` share the normalized domain `acme.com`
despite different names and are merged into one entity. -/
theorem blocking_website_merge_witness :
    websiteKey "https://www.acme.com/about" = websiteKey "http://acme.com" ∧
    recA.name ≠ recB.name ∧
    ∃ e ∈ (run 0 emptyStore [recA, recB]).entities,
      recA ∈ e.recs ∧ recB ∈ e.recs := by
  refine ⟨by decide, by decide, ?_⟩
  exact blocking_website_merge [recA, recB] 0 recA recB
    (by decide) (by decide) (by decide) (by decide)
    "https://www.acme.com/about" "http://acme.com" rfl rfl (by decide)

/-- The audit map preserves ids pointwise. -/
theorem audit_ids (now window : Nat) (threshold : ℚ) :
    ∀ es : List Entity,
      (es.map (auditEntity now window threshold)).map (fun x => x.id) =
        es.map fun x => x.id := by
  intro es
  induction es with
  | nil => rfl
  | cons e t ih =>
    simp only [List.map_cons, ih]
    congr 1
    unfold auditEntity
    split_ifs <;> rfl

/-- C7: a non-archived entity with no contributing-source update for
longer than the staleness window and a below-threshold-or-absent score is
archived by the quality audit; nothing is deleted (same length, same
ids); and in any store holding that archived entity, a later cluster that
is high-confidence and matches it (and no entity before it) reactivates
exactly it to `active` under its original id. -/
theorem archival_roundtrip (S : Store) (e : Entity) (he : e ∈ S.entities)
    (now window : Nat) (threshold : ℚ)
    (hstatus : e.status ≠ .archived)
    (hstale : window < now - e.updatedAt)
    (hscore : scoreBelow threshold e = true) :
    (∃ e' ∈ (runQualityAudit now window threshold S).entities,
        e'.id = e.id ∧ e'.status = .archived) ∧
    (runQualityAudit now window threshold S).entities.length =
      S.entities.length ∧
    (runQualityAudit now window threshold S).entities.map (fun x => x.id) =
      S.entities.map (fun x => x.id) ∧
    (∀ (T : Store) (es₁ es₂ : List Entity) (C : List NormalizedRecord)
        (t2 : Nat) (eA : Entity),
        T.entities = es₁ ++ eA :: es₂ →
        eA.status = .archived → eA.id = e.id →
        (∀ x ∈ es₁, considerEntity C x = false) →
        highConfidence C = true →
        entityMatches C eA = true →
        ∃ eR, (applyCluster t2 T C).entities = es₁ ++ eR :: es₂ ∧
          eR.id = e.id ∧ eR.status = .active) := by
  have hcond : (e.status != .archived &&
      decide (window < now - e.updatedAt) && scoreBelow threshold e) = true := by
    simp only [Bool.and_eq_true, bne_iff_ne, decide_eq_true_eq]
    exact ⟨⟨hstatus, hstale⟩, hscore⟩
  refine ⟨?_, ?_, ?_, ?_⟩
  · refine ⟨auditEntity now window threshold e,
      List.mem_map_of_mem _ he, ?_, ?_⟩
    · unfold auditEntity
      rw [if_pos hcond]
    · unfold auditEntity
      rw [if_pos hcond]
  · exact List.length_map _ _
  · exact audit_ids now window threshold S.entities
  · intro T es₁ es₂ C t2 eA hT hA hid hpre hconf hmatch
    have hconsider : considerEntity C eA = true := by
      unfold considerEntity
      rw [hmatch, hconf, Bool.and_true, Bool.or_true]
    refine ⟨updateEntity t2 C eA, ?_, ?_, ?_⟩
    · unfold applyCluster
      rw [hT, updFirst_append t2 C es₁ hpre eA hconsider es₂]
    · simpa [updateEntity] using hid
    · unfold updateEntity
      simp [hA, hconf]

/-- C7 witness: the concrete stale entity is archived at day 200 with the
default 180-day window, then reactivated by a user-correction cluster on
its blocking key. -/
theorem archival_roundtrip_witness :
    staleEntity ∈ (⟨[staleEntity], 1⟩ : Store).entities ∧
    (∃ e' ∈ (runQualityAudit 200 defaultStalenessWindow 50
        ⟨[staleEntity], 1⟩).entities,
      e'.id = staleEntity.id ∧ e'.status = .archived) ∧
    (∃ eR, (applyCluster 300
        ⟨[⟨7, 0, 0, .archived, some 10, [recA]⟩], 1⟩ [recU]).entities =
        [] ++ eR :: [] ∧ eR.id = staleEntity.id ∧ eR.status = .active) := by
  have h := archival_roundtrip ⟨[staleEntity], 1⟩ staleEntity
    (List.mem_singleton.mpr rfl) 200 defaultStalenessWindow 50
    (by decide) (by decide) (by decide)
  refine ⟨List.mem_singleton.mpr rfl, h.1, ?_⟩
  exact h.2.2.2 ⟨[⟨7, 0, 0, .archived, some 10, [recA]⟩], 1⟩ [] []
    [recU] 300 ⟨7, 0, 0, .archived, some 10, [recA]⟩ rfl rfl rfl
    (fun x hx => absurd hx (List.not_mem_nil x)) (by decide) (by decide)

end Pipeline

namespace Frontend

/-- C9: for every cluster list and every filter type other than `'all'`,
`filterClustersByType` returns only clusters whose entities all have the
requested type, with `count` equal to the length of the filtered entity
list and at least 1 (no zero-match cluster survives); for `'all'` the
input list is returned unchanged. -/
theorem filterClustersByType_spec (data : List MapCluster) (t : String) :
    (t ≠ "all" →
      ∀ c ∈ filterClustersByType data t,
        (∀ e ∈ c.entities, e.etype = t) ∧ c.count = c.entities.length ∧ 1 ≤ c.count) ∧
    filterClustersByType data "all" = data := by
  constructor
  · intro ht c hc
    unfold filterClustersByType at hc
    rw [if_neg ht] at hc
    simp only [List.map_map, List.mem_filter, List.mem_map, Function.comp] at hc
    obtain ⟨⟨c0, _hc0, rfl⟩, hpos⟩ := hc
    simp only [decide_eq_true_eq] at hpos
    refine ⟨?_, rfl, hpos⟩
    intro e he
    simp only [List.mem_filter] at he
    exact beq_iff_eq.mp he.2
  · simp [filterClustersByType]

/-- C9 witness: a concrete cluster list with a mixed-type cluster,
filtered for startups. -/
theorem filterClustersByType_spec_witness :
    ("startup" ≠ "all") ∧
    ∀ c ∈ filterClustersByType
        [⟨1, 2, 2, [mapE1, mapE2]⟩, ⟨3, 4, 1, [mapE2]⟩] "startup",
      (∀ e ∈ c.entities, e.etype = "startup") ∧
      c.count = c.entities.length ∧ 1 ≤ c.count := by
  refine ⟨by decide, ?_⟩
  exact (filterClustersByType_spec
    [⟨1, 2, 2, [mapE1, mapE2]⟩, ⟨3, 4, 1, [mapE2]⟩] "startup").1 (by decide)

/-- `saveProject` on the empty store appends the project. -/
theorem saveProject_nil (p : Project) : saveProject [] p = [p] := rfl

/-- Unfolding of `saveProject` on a non-empty store: replace the head when
its id matches, else recurse. -/
theorem saveProject_cons (q : Project) (qs : List Project) (p : Project) :
    saveProject (q :: qs) p =
      if q.id = p.id then p :: qs else q :: saveProject qs p := by
  unfold saveProject
  rw [List.findIdx?_cons]
  by_cases h : q.id = p.id
  · simp [h]
  · have hb : (q.id == p.id) = false := beq_eq_false_iff_ne.mpr h
    simp only [hb, cond_false, if_neg h]
    cases hfi : List.findIdx? (fun r => r.id == p.id) qs with
    | none => simp [hfi]
    | some i => simp [hfi]

/-- Every id in the saved list is the new id or an old one. -/
theorem saveProject_id_mem (projects : List Project) (p : Project) (x : Project)
    (hx : x ∈ saveProject projects p) :
    x.id = p.id ∨ x.id ∈ projects.map fun q => q.id := by
  induction projects with
  | nil => rw [saveProject_nil] at hx; simp at hx; simp [hx]
  | cons q qs ih =>
    rw [saveProject_cons] at hx
    by_cases h : q.id = p.id
    · rw [if_pos h] at hx
      rcases List.mem_cons.mp hx with rfl | hx
      · exact Or.inl rfl
      · exact Or.inr (List.mem_map_of_mem _ (List.mem_cons_of_mem _ hx))
    · rw [if_neg h] at hx
      rcases List.mem_cons.mp hx with rfl | hx
      · simp
      · rcases ih hx with h1 | h1
        · exact Or.inl h1
        · simp only [List.map_cons, List.mem_cons]
          exact Or.inr (Or.inr (by simpa using h1))

/-- C10: on a stored list whose ids are pairwise distinct, `saveProject`
keeps the ids distinct, stores exactly one project with the new id (the
saved one), leaves every project with a different id unchanged, and is
idempotent. -/
theorem saveProject_upsert (projects : List Project) (p : Project)
    (hnd : (projects.map fun q => q.id).Nodup) :
    ((saveProject projects p).map fun q => q.id).Nodup ∧
    (saveProject projects p).filter (fun q => q.id == p.id) = [p] ∧
    (saveProject projects p).filter (fun q => q.id != p.id) =
      projects.filter (fun q => q.id != p.id) ∧
    saveProject (saveProject projects p) p = saveProject projects p := by
  induction projects with
  | nil =>
    rw [saveProject_nil]
    refine ⟨by simp, by simp, by simp, ?_⟩
    rw [saveProject_cons]
    simp
  | cons q qs ih =>
    rw [List.map_cons, List.nodup_cons] at hnd
    obtain ⟨hq, hqs⟩ := hnd
    obtain ⟨ih1, ih2, ih3, ih4⟩ := ih hqs
    rw [saveProject_cons]
    by_cases h : q.id = p.id
    · rw [if_pos h]
      have hqsnone : ∀ x ∈ qs, ¬(x.id == p.id) = true := by
        intro x hx hbe
        exact hq (h ▸ beq_iff_eq.mp hbe ▸ List.mem_map_of_mem _ hx)
      refine ⟨?_, ?_, ?_, ?_⟩
      · rw [List.map_cons, List.nodup_cons]
        refine ⟨fun hmem => ?_, hqs⟩
        exact hq (h ▸ hmem)
      · rw [List.filter_cons_of_pos (by simp)]
        rw [List.filter_eq_nil_iff.mpr hqsnone]
      · rw [List.filter_cons_of_neg (by simp), List.filter_cons_of_neg (by simp [h])]
      · rw [saveProject_cons, if_pos rfl]
    · rw [if_neg h]
      have hbne : (q.id == p.id) = false := beq_eq_false_iff_ne.mpr h
      refine ⟨?_, ?_, ?_, ?_⟩
      · rw [List.map_cons, List.nodup_cons]
        refine ⟨?_, ih1⟩
        intro hmem
        rcases List.mem_map.mp hmem with ⟨x, hx, hxe⟩
        rcases saveProject_id_mem qs p x hx with h1 | h1
        · exact h (hxe ▸ h1.symm ▸ rfl)
        · exact hq (hxe ▸ h1)
      · rw [List.filter_cons_of_neg (by simp [hbne])]
        exact ih2
      · rw [List.filter_cons_of_pos (by simp [h]), List.filter_cons_of_pos (by simp [h])]
        rw [ih3]
      · rw [saveProject_cons, if_neg h, ih4]

/-- C10 witness: saving an updated project over a two-project store. -/
theorem saveProject_upsert_witness :
    (([projP, projQ].map fun q => q.id).Nodup) ∧
    (saveProject [projP, projQ] projP').filter (fun q => q.id == projP'.id) = [projP'] ∧
    saveProject (saveProject [projP, projQ] projP') projP' =
      saveProject [projP, projQ] projP' := by
  have h := saveProject_upsert [projP, projQ] projP' (by decide)
  exact ⟨by decide, h.2.1, h.2.2.2⟩

/-- Inserting into the key-grouped lists prepends the element, up to
permutation of the concatenated values. -/
theorem joinVals_insertGrouped {α κ : Type} [DecidableEq κ] (k : κ) (a : α) :
    ∀ gs : List (κ × List α),
      (joinVals (insertGrouped k a gs)).Perm (a :: joinVals gs) := by
  intro gs
  induction gs with
  | nil => simp [insertGrouped, joinVals]
  | cons p rest ih =>
    unfold insertGrouped
    by_cases h : p.1 = k
    · rw [if_pos h]
      unfold joinVals
      simp only [List.map_cons, List.flatten_cons, List.append_assoc,
        List.singleton_append]
      exact List.perm_middle
    · rw [if_neg h]
      unfold joinVals at ih ⊢
      simp only [List.map_cons, List.flatten_cons]
      exact (List.Perm.append_left p.2 ih).trans List.perm_middle

/-- Grouping by key only permutes the elements. -/
theorem joinVals_groupBy_aux {α κ : Type} [DecidableEq κ] (key : α → κ) :
    ∀ (l : List α) (gs : List (κ × List α)),
      (joinVals (l.foldl (fun gs a => insertGrouped (key a) a gs) gs)).Perm
        (joinVals gs ++ l) := by
  intro l
  induction l with
  | nil => intro gs; simp
  | cons x t ih =>
    intro gs
    rw [List.foldl_cons]
    refine (ih (insertGrouped (key x) x gs)).trans ?_
    refine (List.Perm.append_right t (joinVals_insertGrouped (key x) x gs)).trans ?_
    exact List.perm_middle.symm

/-- The groups of `groupByKey` partition the input, as a multiset. -/
theorem groupByKey_perm {α κ : Type} [DecidableEq κ] (key : α → κ) (l : List α) :
    (joinVals (groupByKey key l)).Perm l := by
  have h := joinVals_groupBy_aux key l []
  simpa [joinVals] using h

/-- Insertion preserves that every group is nonempty and key-homogeneous. -/
theorem insertGrouped_ok {α κ : Type} [DecidableEq κ] (key : α → κ) (k : κ)
    (a : α) (ha : key a = k) :
    ∀ gs : List (κ × List α),
      (∀ p ∈ gs, p.2 ≠ [] ∧ ∀ x ∈ p.2, key x = p.1) →
      ∀ p ∈ insertGrouped k a gs, p.2 ≠ [] ∧ ∀ x ∈ p.2, key x = p.1 := by
  intro gs
  induction gs with
  | nil =>
    intro _ p hp
    rcases List.mem_singleton.mp hp with rfl
    refine ⟨by simp, ?_⟩
    intro x hx
    rcases List.mem_singleton.mp hx with rfl
    exact ha
  | cons q rest ih =>
    intro h p hp
    unfold insertGrouped at hp
    by_cases hq : q.1 = k
    · rw [if_pos hq] at hp
      rcases List.mem_cons.mp hp with rfl | hp'
      · obtain ⟨_, hqall⟩ := h q (List.mem_cons_self q rest)
        refine ⟨by simp, ?_⟩
        intro x hx
        rcases List.mem_append.mp hx with hx' | hx'
        · exact hqall x hx'
        · rcases List.mem_singleton.mp hx' with rfl
          rw [ha, ← hq]
      · exact h _ (List.mem_cons_of_mem _ hp')
    · rw [if_neg hq] at hp
      rcases List.mem_cons.mp hp with rfl | hp'
      · exact h q (List.mem_cons_self q rest)
      · exact ih (fun r hr => h r (List.mem_cons_of_mem _ hr)) p hp'

/-- Every group produced by `groupByKey` is nonempty and key-homogeneous. -/
theorem groupByKey_ok {α κ : Type} [DecidableEq κ] (key : α → κ) (l : List α) :
    ∀ p ∈ groupByKey key l, p.2 ≠ [] ∧ ∀ x ∈ p.2, key x = p.1 := by
  unfold groupByKey
  suffices haux : ∀ (t : List α) (gs : List (κ × List α)),
      (∀ p ∈ gs, p.2 ≠ [] ∧ ∀ x ∈ p.2, key x = p.1) →
      ∀ p ∈ t.foldl (fun gs a => insertGrouped (key a) a gs) gs,
        p.2 ≠ [] ∧ ∀ x ∈ p.2, key x = p.1 by
    exact haux l [] fun p hp => absurd hp (List.not_mem_nil p)
  intro t
  induction t with
  | nil => intro gs h; exact h
  | cons x ts ih =>
    intro gs h
    rw [List.foldl_cons]
    exact ih _ (insertGrouped_ok key (key x) x rfl gs h)

/-- A nonempty type group's cluster carries exactly the group, with a
matching count. -/
theorem typeGroupCluster_spec (p : String × List MapEntity) (hne : p.2 ≠ []) :
    (typeGroupCluster p).entities = p.2 ∧
      (typeGroupCluster p).count = p.2.length := by
  unfold typeGroupCluster
  cases hpe : p.2 with
  | nil => exact absurd hpe hne
  | cons e t => exact ⟨rfl, rfl⟩

/-- The per-coordinate-group cluster construction: its clusters partition
the group, counts agree with the entity lists, and each cluster is
homogeneous in effective type. -/
theorem clustersOfGroup_spec (g : List MapEntity) :
    ((((clustersOfGroup g).map fun c => c.entities).flatten).Perm g) ∧
    ∀ c ∈ clustersOfGroup g,
      c.count = c.entities.length ∧
      (∀ a ∈ c.entities, a ∈ g) ∧
      (∀ a ∈ c.entities, ∀ b ∈ c.entities, effType a = effType b) := by
  unfold clustersOfGroup
  have hok := groupByKey_ok effType g
  have hperm := groupByKey_perm effType g
  by_cases hlen : 1 < (groupByKey effType g).length
  · rw [if_pos hlen]
    have hmap : (List.map (fun c => c.entities)
          ((groupByKey effType g).map typeGroupCluster)) =
        (groupByKey effType g).map fun p => p.2 := by
      rw [List.map_map]
      refine List.map_congr_left ?_
      intro p hp
      exact (typeGroupCluster_spec p (hok p hp).1).1
    constructor
    · rw [hmap]
      exact hperm
    · intro c hc
      rcases List.mem_map.mp hc with ⟨p, hp, rfl⟩
      obtain ⟨hne, hall⟩ := hok p hp
      obtain ⟨hent, hcnt⟩ := typeGroupCluster_spec p hne
      rw [hent, hcnt]
      refine ⟨rfl, ?_, ?_⟩
      · intro a ha
        have : a ∈ joinVals (groupByKey effType g) := by
          unfold joinVals
          rw [List.mem_flatten]
          exact ⟨p.2, List.mem_map_of_mem _ hp, ha⟩
        exact hperm.subset this
      · intro a ha b hb
        rw [hall a ha, hall b hb]
  · rw [if_neg hlen]
    cases hg : g with
    | nil => simp
    | cons e t =>
      constructor
      · simp
      · intro c hc
        rcases List.mem_singleton.mp hc with rfl
        refine ⟨rfl, fun a ha => ha, ?_⟩
        have hsingle : ∃ p, groupByKey effType g = [p] := by
          cases hgs : groupByKey effType g with
          | nil =>
            exfalso
            have : e ∈ joinVals (groupByKey effType g) :=
              hperm.mem_iff.mpr (hg ▸ List.mem_cons_self e t)
            rw [hgs] at this
            simp [joinVals] at this
          | cons p rest =>
            cases rest with
            | nil => exact ⟨p, rfl⟩
            | cons q more =>
              exfalso
              rw [hgs] at hlen
              simp at hlen
        obtain ⟨p, hp⟩ := hsingle
        have hmem : ∀ x ∈ g, effType x = p.1 := by
          intro x hx
          have : x ∈ joinVals (groupByKey effType g) := hperm.mem_iff.mpr hx
          rw [hp] at this
          simp only [joinVals, List.map_cons, List.map_nil, List.flatten_cons,
            List.flatten_nil, List.append_nil] at this
          exact (hok p (hp ▸ List.mem_singleton.mpr rfl)).2 x this
        intro a ha b hb
        rw [hmem a (hg ▸ ha), hmem b (hg ▸ hb)]

/-- C8: the coordinate-grouping step of `loadMapData` places every loaded
entity in exactly one cluster (the clusters partition the list as a
multiset), every cluster holds entities of a single type and a single
5-decimal coordinate key, and every cluster's `count` equals the length
of its entity list. -/
theorem loadMapData_partition (l : List MapEntity) (h : ∀ e ∈ l, e.etype ≠ "") :
    (((buildClusters l).map fun c => c.entities).flatten).Perm l ∧
    ∀ c ∈ buildClusters l,
      c.count = c.entities.length ∧
      ∀ a ∈ c.entities, ∀ b ∈ c.entities,
        a.etype = b.etype ∧ coordKey a = coordKey b := by
  unfold buildClusters
  have hok := groupByKey_ok coordKey l
  have hperm := groupByKey_perm coordKey l
  have hmem_l : ∀ p ∈ groupByKey coordKey l, ∀ a ∈ p.2, a ∈ l := by
    intro p hp a ha
    refine hperm.subset ?_
    unfold joinVals
    rw [List.mem_flatten]
    exact ⟨p.2, List.mem_map_of_mem _ hp, ha⟩
  constructor
  · suffices haux : ∀ gs : List ((ℤ × ℤ) × List MapEntity),
        ((((gs.map fun p => clustersOfGroup p.2).flatten).map
          fun c => c.entities).flatten).Perm (joinVals gs) by
      exact (haux (groupByKey coordKey l)).trans hperm
    intro gs
    induction gs with
    | nil => simp [joinVals]
    | cons p rest ih =>
      simp only [List.map_cons, List.flatten_cons, List.map_append,
        List.flatten_append, joinVals]
      refine List.Perm.append ?_ ?_
      · exact (clustersOfGroup_spec p.2).1
      · simpa [joinVals] using ih
  · intro c hc
    rw [List.mem_flatten] at hc
    obtain ⟨cl, hcl, hccl⟩ := hc
    rcases List.mem_map.mp hcl with ⟨p, hp, rfl⟩
    obtain ⟨hcount, hsub, htype⟩ := (clustersOfGroup_spec p.2).2 c hccl
    refine ⟨hcount, ?_⟩
    intro a ha b hb
    constructor
    · have hta : a.etype ≠ "" := h a (hmem_l p hp a (hsub a ha))
      have htb : b.etype ≠ "" := h b (hmem_l p hp b (hsub b hb))
      have := htype a ha b hb
      unfold effType at this
      rw [if_neg hta, if_neg htb] at this
      exact this
    · have hka : coordKey a = p.1 := (hok p hp).2 a (hsub a ha)
      have hkb : coordKey b = p.1 := (hok p hp).2 b (hsub b hb)
      rw [hka, hkb]

/-- C8 witness: three entities, two sharing a coordinate with different
types, split into single-type single-coordinate clusters that partition
the input. -/
theorem loadMapData_partition_witness :
    (∀ e ∈ [mapE1, mapE2, mapE3], e.etype ≠ "") ∧
    ((((buildClusters [mapE1, mapE2, mapE3]).map fun c => c.entities).flatten).Perm
      [mapE1, mapE2, mapE3]) := by
  refine ⟨by decide, ?_⟩
  exact (loadMapData_partition [mapE1, mapE2, mapE3] (by decide)).1

end Frontend
